import Mathlib

/-!
The bare-metal allocator of ruspiro-allocator, `src/memory.c`.

A shallow embedding of `m_alloc`, `m_alloca`, `m_free`, `m_freea` and `m_memset`
over a byte-addressed, little-endian 32-bit memory, followed by the properties of
the allocator that the specification states.

Conventions of the embedding

* `unsigned int` values are natural numbers, every C operation that can wrap is
  reduced modulo `WORD = 2^32`;
* heap memory is a function from byte addresses to bytes; a 32-bit access at
  address `a` touches the four bytes `a, a+1, a+2, a+3` (addresses modulo `2^32`);
* the globals `gHeapStart`, `gHeapMax`, `gHeapUsed`, `gFreeList` are fields of
  `State`, they do not live in the byte memory;
* `sizeof(MEMORY_HEADER_T) = 20` (five `unsigned int` fields and a zero-length
  array) and `sizeof(void*) = 4`: the code casts pointers to `unsigned int`;
* `gBlockSizes` has 13 entries while the class scan can index entry 13: the word
  found behind the table is the parameter `oob` of every call that scans;
* the external `__qmset` is a parameter of `m_memset`; the `char` argument of
  `m_memset` is its bit pattern `0..255`, converted to `unsigned int` for either
  signedness of `char`.
-/

namespace Ruspiro

/-! ## Constants of `memory.c` -/

/-- The range of `unsigned int`: `2^32`. -/
def WORD : Nat := 4294967296

/-- The magic identifying a managed memory block (`MM_MAGIC`). -/
def MM_MAGIC : Nat := 0xDEADBEEF

/-- The number of free lists (`MM_BLOCKS`). -/
def MM_BLOCKS : Nat := 14

/-- The value of `sizeof(MEMORY_HEADER_T)`: the fields `magic`, `size`, `psize`,
`prev`, `next` of four bytes each; `data[0]` adds nothing. -/
def HEADER_SIZE : Nat := 20

/-- The value of `sizeof(void*)` on the 32-bit target. -/
def PTR_SIZE : Nat := 4

/-- The table `gBlockSizes` (13 entries). -/
def gBlockSizes : List Nat :=
  [0x40, 0x100, 0x400, 0x1000, 0x4000, 0x10000, 0x40000, 0x100000, 0x400000,
   0x800000, 0x1000000, 0x4000000, 0x10000000]

/-- The expression `gBlockSizes[i]` as the code evaluates it: entries `0..12` come
from the table, index 13 lies one word behind the table and yields `oob`. -/
def blockSizeAt (oob i : Nat) : Nat := gBlockSizes.getD i (oob % WORD)

/-! ## Memory -/

/-- Byte-addressed memory. -/
abbrev Mem := Nat → Nat

/-- A little-endian 32-bit load at byte address `a`. -/
def read32 (m : Mem) (a : Nat) : Nat :=
  m (a % WORD) % 256 + 256 * (m ((a + 1) % WORD) % 256)
    + 65536 * (m ((a + 2) % WORD) % 256) + 16777216 * (m ((a + 3) % WORD) % 256)

/-- A little-endian 32-bit store of `v` at byte address `a`. -/
def write32 (m : Mem) (a v : Nat) : Mem := fun x =>
  if x = a % WORD then v % 256
  else if x = (a + 1) % WORD then v / 256 % 256
  else if x = (a + 2) % WORD then v / 65536 % 256
  else if x = (a + 3) % WORD then v / 16777216 % 256
  else m x

/-- Unsigned 32-bit subtraction. -/
def sub32 (a b : Nat) : Nat := (a % WORD + WORD - b % WORD) % WORD

/-! ## Configuration and state -/

/-- The linker symbols: the addresses of `__heap_start` and `__heap_end`. -/
structure Config where
  heap_start : Nat
  heap_end : Nat

/-- The globals of `memory.c` together with the byte memory. -/
structure State where
  gHeapStart : Nat
  gHeapMax : Nat
  gHeapUsed : Nat
  gFreeList : Nat → Nat
  mem : Mem

/-- The state at program start: all globals zero, memory content `m0`. -/
def initState (m0 : Mem) : State :=
  { gHeapStart := 0, gHeapMax := 0, gHeapUsed := 0, gFreeList := fun _ => 0, mem := m0 }

/-- The function `m_get_heap_start`. -/
def m_get_heap_start (cfg : Config) : Nat := cfg.heap_start % WORD

/-- The function `m_get_heap_end`. -/
def m_get_heap_end (cfg : Config) : Nat := cfg.heap_end % WORD

/-- The function `m_get_heap_size`: the code subtracts the end from the start. -/
def m_get_heap_size (cfg : Config) : Nat := sub32 (m_get_heap_start cfg) (m_get_heap_end cfg)

/-- Assignment to one entry of `gFreeList`. -/
def setList (fl : Nat → Nat) (k v : Nat) : Nat → Nat := fun i => if i = k then v else fl i

/-! ## `m_alloc` -/

/-- Lines 80-91: the lazy initialisation of `gHeapStart` and `gHeapMax`. -/
def lazyInit (cfg : Config) (s : State) : State :=
  if s.gHeapStart = 0 then
    { s with
      gHeapStart := m_get_heap_start cfg
      gHeapMax := sub32 (sub32 (m_get_heap_end cfg) (m_get_heap_start cfg)) (m_get_heap_start cfg) }
  else s

/-- Line 95: `(size + sizeof(MEMORY_HEADER_T) + 0x1F) & (~0x1F)`. -/
def footprint (size : Nat) : Nat := ((size + HEADER_SIZE + 0x1F) % WORD) &&& 0xFFFFFFE0

/-- The loop `while (sz > gBlockSizes[uBlock] && uBlock < MM_BLOCKS - 1) uBlock++`,
with a bound on the number of iterations. -/
def scanBlock (oob sz : Nat) : Nat → Nat → Nat
  | 0, uBlock => uBlock
  | fuel + 1, uBlock =>
    if sz > blockSizeAt oob uBlock ∧ uBlock < MM_BLOCKS - 1 then scanBlock oob sz fuel (uBlock + 1)
    else uBlock

/-- The class scan started at `uBlock = 0`. -/
def selectBlock (oob sz : Nat) : Nat := scanBlock oob sz MM_BLOCKS 0

/-- Lines 98-105: the size the block gets, `uAllocSize` after the class selection. -/
def allocSize (oob size : Nat) : Nat :=
  let uAllocSize := footprint size
  let uBlock := selectBlock oob uAllocSize
  if uAllocSize > blockSizeAt oob uBlock then uAllocSize else blockSizeAt oob uBlock

/-- Lines 133-137: the five stores into the header at address `h`. -/
def writeHeader (m : Mem) (h size psize : Nat) : Mem :=
  write32 (write32 (write32 (write32 (write32 m h MM_MAGIC) (h + 4) size) (h + 8) psize)
    (h + 12) 0) (h + 16) 0

/-- Lines 80-140 of `m_alloc`: the local `header` at line 142 (`none` when the
capacity check at line 108 returned) and the state left behind. -/
def m_alloc_hdr (cfg : Config) (oob size : Nat) (s : State) : Option Nat × State :=
  let s1 := lazyInit cfg s
  let uBlock := selectBlock oob (footprint size)
  let uAllocSize := allocSize oob size
  if (s1.gHeapUsed + uAllocSize) % WORD > s1.gHeapMax then (none, s1)
  else
    let pFree := s1.gFreeList uBlock
    if pFree ≠ 0 then
      let head := read32 s1.mem (pFree + 12)
      let mem1 := if head ≠ 0 then write32 s1.mem (head + 16) 0 else s1.mem
      let mem2 := writeHeader mem1 pFree size uAllocSize
      (some pFree,
        { s1 with
          gFreeList := setList s1.gFreeList uBlock head
          mem := mem2
          gHeapUsed := (s1.gHeapUsed + read32 mem2 (pFree + 8)) % WORD })
    else
      let header := s1.gHeapStart
      let mem2 := writeHeader s1.mem header size uAllocSize
      (some header,
        { s1 with
          gHeapStart := (s1.gHeapStart + uAllocSize) % WORD
          mem := mem2
          gHeapUsed := (s1.gHeapUsed + read32 mem2 (header + 8)) % WORD })

/-- Line 142: `header == 0 ? header : &header->data`. -/
def dataPtr (header : Nat) : Nat := if header = 0 then header else (header + HEADER_SIZE) % WORD

/-- The function `m_alloc`: the returned pointer (0 is the null pointer) and the new state. -/
def m_alloc (cfg : Config) (oob size : Nat) (s : State) : Nat × State :=
  match m_alloc_hdr cfg oob size s with
  | (none, s1) => (0, s1)
  | (some header, s1) => (dataPtr header, s1)

/-! ## `m_free` -/

/-- Line 171: `(unsigned int)ptr - sizeof(MEMORY_HEADER_T)`. -/
def headerOf (ptr : Nat) : Nat := sub32 ptr HEADER_SIZE

/-- Lines 184-188 of `m_free`: the free list a block of size `psize` goes to. -/
def freeBlock (oob psize : Nat) : Nat :=
  let uBlock := selectBlock oob psize
  if psize > blockSizeAt oob uBlock then MM_BLOCKS - 1 else uBlock

/-- The function `m_free`. -/
def m_free (oob ptr : Nat) (s : State) : State :=
  if ptr = 0 then s
  else
    let header := headerOf ptr
    if read32 s.mem header ≠ MM_MAGIC then s
    else if (header + read32 s.mem (header + 8)) % WORD = s.gHeapStart then
      let mem1 := write32 s.mem header 0
      { s with
        mem := mem1
        gHeapStart := header
        gHeapUsed := sub32 s.gHeapUsed (read32 mem1 (header + 8)) }
    else
      let uBlock := freeBlock oob (read32 s.mem (header + 8))
      let pLastFree := s.gFreeList uBlock
      let mem1 := if pLastFree = 0 then s.mem else write32 s.mem (pLastFree + 16) header
      let mem2 := write32 (write32 mem1 (header + 12) pLastFree) (header + 16) 0
      { s with
        gFreeList := setList s.gFreeList uBlock header
        mem := mem2
        gHeapUsed := sub32 s.gHeapUsed (read32 mem2 (header + 8)) }

/-! ## `m_alloca` and `m_freea` -/

/-- The function `m_alloca`: `uPadding = (1 << sAlignment) - 1`, the block comes from
`m_alloc`, the raw pointer is stored in the word before the aligned address. The shift
`1 << sAlignment` is defined for `sAlignment` in `0..30`, where it is `2 ^ sAlignment`. -/
def m_alloca (cfg : Config) (oob size sAlignment : Nat) (s : State) : Nat × State :=
  let uPadding := sub32 (2 ^ sAlignment) 1
  let uAdmin := (PTR_SIZE + uPadding) % WORD
  let r := m_alloc cfg oob ((size + uAdmin) % WORD) s
  let pRealBlock := r.1
  if pRealBlock = 0 then (0, r.2)
  else
    let pAlignedBlock := ((pRealBlock + uAdmin) % WORD) &&& (WORD - 1 - uPadding)
    (pAlignedBlock,
      { r.2 with mem := write32 r.2.mem (sub32 pAlignedBlock PTR_SIZE) pRealBlock })

/-- The function `m_freea`: `m_free(((void**)ptr)[-1])`. -/
def m_freea (oob ptr : Nat) (s : State) : State :=
  m_free oob (read32 s.mem (sub32 ptr PTR_SIZE)) s

/-! ## Call sequences

A call sequence is run from a state together with the list of live blocks: the
header addresses of the blocks that `m_alloc` has handed out (carved or reused,
header written) and that have not been freed since. -/

/-- One call of the interface; `oob` is the word behind `gBlockSizes` at the time
of the call. -/
inductive Op where
  | alloc (size oob : Nat)
  | free (ptr oob : Nat)

/-- The frontier as the next call of `m_alloc` sees it after its lazy initialisation. -/
def frontier (cfg : Config) (s : State) : Nat := (lazyInit cfg s).gHeapStart

/-- A request that is not oversized and whose arithmetic does not wrap: the sum at
line 95 stays below `2^32`, the footprint fits the largest class, `gHeapUsed +
uAllocSize` stays below `2^32`, and so does `gHeapStart + uAllocSize` when the call
carves a block. (The two subtractions of the lazy initialisation are not
constrained.) -/
def allocOk (cfg : Config) (oob size : Nat) (s : State) : Prop :=
  size + HEADER_SIZE + 0x1F < WORD ∧
  footprint size ≤ 0x10000000 ∧
  (lazyInit cfg s).gHeapUsed + allocSize oob size < WORD ∧
  ((lazyInit cfg s).gHeapUsed + allocSize oob size ≤ (lazyInit cfg s).gHeapMax →
    (lazyInit cfg s).gFreeList (selectBlock oob (footprint size)) = 0 →
    (lazyInit cfg s).gHeapStart + allocSize oob size < WORD)

instance (cfg : Config) (oob size : Nat) (s : State) : Decidable (allocOk cfg oob size s) :=
  inferInstanceAs (Decidable (_ ∧ _ ∧ _ ∧ _))

/-- The pointer was returned (non-null) by an earlier `m_alloc` for a block that is
still live. -/
def freeOk (ptr : Nat) (live : List Nat) : Prop :=
  ptr ≠ 0 ∧ ∃ h ∈ live, h ≠ 0 ∧ dataPtr h = ptr

instance (ptr : Nat) (live : List Nat) : Decidable (freeOk ptr live) :=
  inferInstanceAs (Decidable (_ ∧ _))

/-- One well-formed call: the new state and the new list of live blocks, `none` when
the call is not well-formed. A block is live from the call of `m_alloc` that writes
its header on; this includes the block at address 0 that a heap starting at address 0
yields first, for which line 142 returns the null pointer, so that it can never be
freed. -/
def step (cfg : Config) (op : Op) (st : State × List Nat) : Option (State × List Nat) :=
  match op with
  | Op.alloc size oob =>
    if allocOk cfg oob size st.1 then
      match m_alloc_hdr cfg oob size st.1 with
      | (none, s1) => some (s1, st.2)
      | (some header, s1) => some (s1, header :: st.2)
    else none
  | Op.free ptr oob =>
    if freeOk ptr st.2 then some (m_free oob ptr st.1, st.2.erase (headerOf ptr))
    else none

/-- A sequence of well-formed calls. -/
def runFrom (cfg : Config) : List Op → State × List Nat → Option (State × List Nat)
  | [], st => some st
  | op :: ops, st => (step cfg op st).bind (runFrom cfg ops)

/-- A sequence of well-formed calls from the initial state with memory content `m0`. -/
def run (cfg : Config) (m0 : Mem) (ops : List Op) : Option (State × List Nat) :=
  runFrom cfg ops (initState m0, [])

/-! ## The layout of the heap

Ghost data of a reachable state: the list `B` of all blocks `(header, psize)` from
the topmost down to `heap_start`, and for every bucket `k` the list `F k` of the
blocks on free list `k`, the most recently freed first. -/

/-- The blocks of `B`, topmost first, tile `[base, top)`. -/
def Tiles (base : Nat) : Nat → List (Nat × Nat) → Prop
  | top, [] => top = base
  | top, b :: rest => b.1 + b.2 = top ∧ Tiles base b.1 rest

/-- The list `l` is linked in memory from the pointer `p` on by the `prev` fields,
the `next` field of each node holds the node before it (`nxt` for the first). -/
def Links (m : Mem) : Nat → Nat → List Nat → Prop
  | _, p, [] => p = 0
  | nxt, p, h :: t => p = h ∧ h ≠ 0 ∧ read32 m (h + 16) = nxt ∧ Links m h (read32 m (h + 12)) t

/-- The invariant of the allocator. -/
structure Inv (cfg : Config) (s : State) (live : List Nat) (B : List (Nat × Nat))
    (F : Nat → List Nat) : Prop where
  top_lt : frontier cfg s < WORD
  tiles : Tiles (m_get_heap_start cfg) (frontier cfg s) B
  cls : ∀ b ∈ B, ∃ k < 13, gBlockSizes.getD k 0 = b.2
  psz : ∀ b ∈ B, read32 s.mem (b.1 + 8) = b.2
  live_nodup : live.Nodup
  live_in : ∀ h ∈ live, ∃ p, (h, p) ∈ B
  magic : ∀ h ∈ live, read32 s.mem h = MM_MAGIC
  fits : ∀ h ∈ live, ∀ p, (h, p) ∈ B → read32 s.mem (h + 4) + HEADER_SIZE ≤ p
  free_in : ∀ k, ∀ h ∈ F k, k < 13 ∧ (h, gBlockSizes.getD k 0) ∈ B ∧ h ∉ live
  free_nodup : ∀ k, (F k).Nodup
  cover : ∀ b ∈ B, b.1 ∈ live ∨ ∃ k, b.1 ∈ F k
  chain : ∀ k, Links s.mem 0 (s.gFreeList k) (F k)
  used : s.gHeapUsed = (live.map (fun h => read32 s.mem (h + 8))).sum
  used_le : s.gHeapUsed ≤ s.gHeapMax
  used_lt : s.gHeapUsed < WORD

/-- Assignment to one free list of the ghost data. -/
def setChain (F : Nat → List Nat) (k : Nat) (l : List Nat) : Nat → List Nat :=
  fun i => if i = k then l else F i

/-! ## Runs of frees and of allocations -/

/-- The calls `m_free(p)` for the pointers of a list, in the order of the list. -/
def freeAll (oob : Nat) : List Nat → State → State
  | [], s => s
  | p :: ps, s => freeAll oob ps (m_free oob p s)

/-- The calls `m_alloc(n)` for the sizes of a list, in the order of the list: the
pointers returned and the final state. -/
def allocAll (cfg : Config) (oob : Nat) : List Nat → State → List Nat × State
  | [], s => ([], s)
  | n :: ns, s =>
    ((m_alloc cfg oob n s).1 :: (allocAll cfg oob ns (m_alloc cfg oob n s).2).1,
      (allocAll cfg oob ns (m_alloc cfg oob n s).2).2)

/-- None of the blocks is topmost (`header + psize == gHeapStart`) at the moment
`freeAll` frees it. -/
def notTopWhenFreed (oob : Nat) : List Nat → State → Prop
  | [], _ => True
  | p :: ps, s =>
    (headerOf p + read32 s.mem (headerOf p + 8)) % WORD ≠ s.gHeapStart
      ∧ notTopWhenFreed oob ps (m_free oob p s)

/-! ## Concrete configurations -/

/-- The configuration of the end-to-end scenarios: a 1 MiB heap at address `0x10000`. -/
def exCfg : Config := { heap_start := 0x10000, heap_end := 0x110000 }

/-- A 64 KiB heap at address `0x10000`. -/
def exCfg64k : Config := { heap_start := 0x10000, heap_end := 0x20000 }

/-- A 64 KiB heap at address `0x100000`. -/
def exCfgHigh : Config := { heap_start := 0x100000, heap_end := 0x110000 }

/-- A 20 KiB heap at address `0x800`. -/
def exCfgLow : Config := { heap_start := 0x800, heap_end := 0x5800 }

/-- Memory filled with zero bytes. -/
def zeroMem : Mem := fun _ => 0

/-- A 64 KiB heap at 128 MiB: `heap_start = 0x8000000`, `heap_end = 0x8010000`. -/
def exCfgMid : Config := { heap_start := 0x8000000, heap_end := 0x8010000 }

/-! ## Call sequences that may wrap -/

/-- One call that is well-formed in the weaker sense: no oversized request, every
free applied to the pointer of a live block; the 32-bit arithmetic of the call may
wrap. -/
def stepWrap (cfg : Config) (op : Op) (st : State × List Nat) : Option (State × List Nat) :=
  match op with
  | Op.alloc size oob =>
    if footprint size ≤ 0x10000000 then
      match m_alloc_hdr cfg oob size st.1 with
      | (none, s1) => some (s1, st.2)
      | (some header, s1) => some (s1, header :: st.2)
    else none
  | Op.free ptr oob =>
    if freeOk ptr st.2 then some (m_free oob ptr st.1, st.2.erase (headerOf ptr))
    else none

/-- A sequence of calls that are well-formed in the weaker sense. -/
def runFromWrap (cfg : Config) : List Op → State × List Nat → Option (State × List Nat)
  | [], st => some st
  | op :: ops, st => (stepWrap cfg op st).bind (runFromWrap cfg ops)

/-- A sequence of calls that are well-formed in the weaker sense, from the initial
state with memory content `m0`. -/
def runWrap (cfg : Config) (m0 : Mem) (ops : List Op) : Option (State × List Nat) :=
  runFromWrap cfg ops (initState m0, [])

/-! ## The class scan with its table reads -/

/-- The indices at which the loop of the class scan evaluates `gBlockSizes[uBlock]`:
the left operand of `&&` is evaluated in every test of the loop condition. -/
def scanReads (oob sz : Nat) : Nat → Nat → List Nat
  | 0, _ => []
  | fuel + 1, uBlock =>
    uBlock ::
      (if sz > blockSizeAt oob uBlock ∧ uBlock < MM_BLOCKS - 1 then
        scanReads oob sz fuel (uBlock + 1)
      else [])

/-- All the indices at which the class selection reads `gBlockSizes`: the tests of
the loop and the comparison after the loop (lines 100 and 186). -/
def selectReads (oob sz : Nat) : List Nat :=
  scanReads oob sz MM_BLOCKS 0 ++ [selectBlock oob sz]

/-! ## `m_memset` -/

/-- The conversion of the `char` argument `value` (its bit pattern, `0..255`) to
`unsigned int`: the value itself where `char` is unsigned, as on the ARM target, the
sign extension where `char` is signed. -/
def charToUInt (signedChar : Bool) (value : Nat) : Nat :=
  if signedChar ∧ 128 ≤ value % 256 then 0xFFFFFF00 + value % 256 else value % 256

/-- The loop of lines 220-223: each of the `count` rounds stores the 32-bit `word` at
`uTrg` and advances `uTrg` by one byte. -/
def tailLoop (word : Nat) : Nat → Nat → Mem → Mem
  | 0, _, m => m
  | count + 1, uTrg, m => tailLoop word count ((uTrg + 1) % WORD) (write32 m uTrg word)

/-- The function `m_memset`; the external `__qmset` is the parameter `qmset`, which
maps the memory, the target, the value and the size to the memory after the call. -/
def m_memset (qmset : Mem → Nat → Nat → Nat → Mem) (signedChar : Bool)
    (trg value size : Nat) (m : Mem) : Mem :=
  let uFastSize := (((size % WORD) >>> 4) <<< 4) % WORD
  let m1 := if uFastSize ≠ 0 then qmset m trg (charToUInt signedChar value) uFastSize else m
  let uSlowSize := sub32 size uFastSize
  let uTrg := (trg + uFastSize) % WORD
  tailLoop (charToUInt signedChar value) uSlowSize uTrg m1

/-- What the specification assumes of the external fill primitive: called with a
size that is a multiple of 16 on a range that does not wrap, it sets exactly the bytes
of the range to the low byte of the value. -/
def FastFillSpec (qmset : Mem → Nat → Nat → Nat → Mem) : Prop :=
  ∀ (m : Mem) (trg value size a : Nat), size % 16 = 0 → trg + size ≤ WORD →
    qmset m trg value size a = if trg ≤ a ∧ a < trg + size then value % 256 else m a

/-- Modelled from the spec: the external primitive `__qmset` (`fast_fill(dst, value,
n)`), whose code is not part of the sources; it fills the `n` bytes starting at `dst`
with `value`. -/
def fast_fill (m : Mem) (trg value size : Nat) : Mem :=
  fun a => if trg ≤ a ∧ a < trg + size then value % 256 else m a

/-- Memory filled with `0xFF` bytes. -/
def ffMem : Mem := fun _ => 0xFF

/-! ## Loads and stores -/

theorem write32_other (m : Mem) (a v x : Nat) (h : ∀ i < 4, x ≠ (a + i) % WORD) :
    write32 m a v x = m x := by
  have h0 := h 0 (by omega)
  have h1 := h 1 (by omega)
  have h2 := h 2 (by omega)
  have h3 := h 3 (by omega)
  simp only [Nat.add_zero] at h0
  simp [write32, h0, h1, h2, h3]

theorem read32_write32_frame (m : Mem) (a v b : Nat)
    (h : ∀ i < 4, ∀ j < 4, (a + i) % WORD ≠ (b + j) % WORD) :
    read32 (write32 m a v) b = read32 m b := by
  have e : ∀ j < 4, write32 m a v ((b + j) % WORD) = m ((b + j) % WORD) := by
    intro j hj
    apply write32_other
    intro i hi
    exact fun hc => h i hi j hj hc.symm
  have e0 := e 0 (by omega)
  simp only [Nat.add_zero] at e0
  simp only [read32, e0, e 1 (by omega), e 2 (by omega), e 3 (by omega)]

theorem read32_lt (m : Mem) (a : Nat) : read32 m a < WORD := by
  unfold read32 WORD
  omega

theorem read32_write32_same (m : Mem) (a v : Nat) :
    read32 (write32 m a v) a = v % WORD := by
  have h1 : (a + 1) % WORD ≠ a % WORD := by unfold WORD; omega
  have h2 : (a + 2) % WORD ≠ a % WORD := by unfold WORD; omega
  have h3 : (a + 3) % WORD ≠ a % WORD := by unfold WORD; omega
  have h12 : (a + 2) % WORD ≠ (a + 1) % WORD := by unfold WORD; omega
  have h13 : (a + 3) % WORD ≠ (a + 1) % WORD := by unfold WORD; omega
  have h23 : (a + 3) % WORD ≠ (a + 2) % WORD := by unfold WORD; omega
  simp only [read32, write32, if_true, if_neg h1, if_neg h2, if_neg h3, if_neg h12, if_neg h13, if_neg h23]
  unfold WORD
  omega


theorem read32_writeHeader_frame (m : Mem) (h size psize b : Nat)
    (hs : ∀ i < 20, ∀ j < 4, (h + i) % WORD ≠ (b + j) % WORD) :
    read32 (writeHeader m h size psize) b = read32 m b := by
  unfold writeHeader
  rw [read32_write32_frame, read32_write32_frame, read32_write32_frame, read32_write32_frame,
    read32_write32_frame]
  · intro i hi j hj; exact hs i (by omega) j hj
  · intro i hi j hj; have := hs (4 + i) (by omega) j hj; rwa [← Nat.add_assoc] at this
  · intro i hi j hj; have := hs (8 + i) (by omega) j hj; rwa [← Nat.add_assoc] at this
  · intro i hi j hj; have := hs (12 + i) (by omega) j hj; rwa [← Nat.add_assoc] at this
  · intro i hi j hj; have := hs (16 + i) (by omega) j hj; rwa [← Nat.add_assoc] at this

theorem field_sep (h c d : Nat) (hc : c + 4 ≤ d) (hd : d ≤ 16) :
    ∀ i < 4, ∀ j < 4, (h + d + i) % WORD ≠ (h + c + j) % WORD := by
  intro i hi j hj
  unfold WORD
  omega

theorem field_sep2 (h c d : Nat) (hc : c + 4 ≤ d) (hd : d ≤ 16) :
    ∀ i < 4, ∀ j < 4, (h + c + i) % WORD ≠ (h + d + j) % WORD := by
  intro i hi j hj
  unfold WORD
  omega

theorem read32_writeHeader_magic (m : Mem) (h size psize : Nat) :
    read32 (writeHeader m h size psize) h = MM_MAGIC := by
  unfold writeHeader
  rw [read32_write32_frame _ _ _ _ (by intro i hi j hj; unfold WORD; omega),
    read32_write32_frame _ _ _ _ (by intro i hi j hj; unfold WORD; omega),
    read32_write32_frame _ _ _ _ (by intro i hi j hj; unfold WORD; omega),
    read32_write32_frame _ _ _ _ (by intro i hi j hj; unfold WORD; omega),
    read32_write32_same]
  decide

theorem read32_writeHeader_size (m : Mem) (h size psize : Nat) :
    read32 (writeHeader m h size psize) (h + 4) = size % WORD := by
  unfold writeHeader
  rw [read32_write32_frame _ _ _ _ (by intro i hi j hj; unfold WORD; omega),
    read32_write32_frame _ _ _ _ (by intro i hi j hj; unfold WORD; omega),
    read32_write32_frame _ _ _ _ (by intro i hi j hj; unfold WORD; omega),
    read32_write32_same]

theorem read32_writeHeader_psize (m : Mem) (h size psize : Nat) :
    read32 (writeHeader m h size psize) (h + 8) = psize % WORD := by
  unfold writeHeader
  rw [read32_write32_frame _ _ _ _ (by intro i hi j hj; unfold WORD; omega),
    read32_write32_frame _ _ _ _ (by intro i hi j hj; unfold WORD; omega),
    read32_write32_same]

theorem read32_writeHeader_prev (m : Mem) (h size psize : Nat) :
    read32 (writeHeader m h size psize) (h + 12) = 0 := by
  unfold writeHeader
  rw [read32_write32_frame _ _ _ _ (by intro i hi j hj; unfold WORD; omega),
    read32_write32_same]
  rfl

theorem read32_writeHeader_next (m : Mem) (h size psize : Nat) :
    read32 (writeHeader m h size psize) (h + 16) = 0 := by
  unfold writeHeader
  rw [read32_write32_same]
  rfl

theorem read32_write32_sep (m : Mem) (a v b : Nat) (ha : a + 4 ≤ WORD) (hb : b + 4 ≤ WORD)
    (h : a + 4 ≤ b ∨ b + 4 ≤ a) : read32 (write32 m a v) b = read32 m b := by
  apply read32_write32_frame
  intro i hi j hj
  unfold WORD at *
  omega

theorem read32_writeHeader_sep (m : Mem) (h size psize b : Nat) (hh : h + 20 ≤ WORD)
    (hb : b + 4 ≤ WORD) (hs : h + 20 ≤ b ∨ b + 4 ≤ h) :
    read32 (writeHeader m h size psize) b = read32 m b := by
  apply read32_writeHeader_frame
  intro i hi j hj
  unfold WORD at *
  omega

/-! ## Masks -/

/-- Masking with `~(2^k - 1)` clears the low `k` bits. -/
theorem land_mask (x k : Nat) (hx : x < 2 ^ 32) (hk : k ≤ 32) :
    x &&& (2 ^ 32 - 2 ^ k) = x - x % 2 ^ k := by
  have e1 : x - x % 2 ^ k = 2 ^ k * (x / 2 ^ k) := by
    have := Nat.div_add_mod x (2 ^ k)
    omega
  have e2 : 2 ^ 32 - 2 ^ k = 2 ^ k * (2 ^ (32 - k) - 1) := by
    have h : (2:Nat) ^ 32 = 2 ^ k * 2 ^ (32 - k) := by
      rw [← Nat.pow_add]
      congr 1
      omega
    rw [Nat.mul_sub, Nat.mul_one, ← h]
  rw [e1, e2]
  apply Nat.eq_of_testBit_eq
  intro j
  rw [Nat.testBit_and, Nat.testBit_mul_pow_two, Nat.testBit_mul_pow_two,
    Nat.testBit_two_pow_sub_one, ← Nat.shiftRight_eq_div_pow, Nat.testBit_shiftRight]
  by_cases hj : j ≥ k
  · have e3 : k + (j - k) = j := by omega
    rw [e3]
    by_cases hj2 : j < 32
    · have : j - k < 32 - k := by omega
      simp [hj, this]
    · have hx2 : x < 2 ^ j := lt_of_lt_of_le hx (Nat.pow_le_pow_right (by omega) (by omega))
      rw [Nat.testBit_lt_two_pow hx2]
      simp
  · simp [hj]

theorem footprint_eq (size : Nat) :
    footprint size = (size + 51) % WORD - (size + 51) % WORD % 32 := by
  have h := land_mask ((size + 51) % WORD) 5 (Nat.mod_lt _ (by decide)) (by omega)
  exact h

theorem footprint_bounds (size : Nat) (h : size + HEADER_SIZE + 0x1F < WORD) :
    size + HEADER_SIZE ≤ footprint size ∧ footprint size ≤ size + HEADER_SIZE + 0x1F
      ∧ footprint size % 32 = 0 := by
  rw [footprint_eq]
  unfold HEADER_SIZE WORD at *
  omega

theorem footprint_lt (size : Nat) : footprint size < WORD ∧ footprint size % 32 = 0 := by
  rw [footprint_eq]
  unfold WORD
  omega

/-! ## The class scan -/

/-- The class scan as a loop: with enough fuel it stops at the first index, from
`u` on, at which the loop condition fails. -/
theorem scanBlock_spec (oob sz : Nat) :
    ∀ fuel u, u ≤ MM_BLOCKS - 1 → MM_BLOCKS - 1 - u ≤ fuel →
      u ≤ scanBlock oob sz fuel u ∧ scanBlock oob sz fuel u ≤ MM_BLOCKS - 1
      ∧ (∀ j, u ≤ j → j < scanBlock oob sz fuel u → sz > blockSizeAt oob j)
      ∧ ¬ (sz > blockSizeAt oob (scanBlock oob sz fuel u)
            ∧ scanBlock oob sz fuel u < MM_BLOCKS - 1) := by
  intro fuel
  induction fuel with
  | zero =>
    intro u hu hf
    have : u = MM_BLOCKS - 1 := by omega
    simp only [scanBlock]
    refine ⟨le_refl _, hu, ?_, ?_⟩
    · intro j h1 h2; omega
    · intro h; omega
  | succ n ih =>
    intro u hu hf
    simp only [scanBlock]
    split
    · rename_i hc
      obtain ⟨h1, h2, h3, h4⟩ := ih (u + 1) (by omega) (by omega)
      refine ⟨by omega, h2, ?_, h4⟩
      intro j hj1 hj2
      by_cases hju : j = u
      · subst hju; exact hc.1
      · exact h3 j (by omega) hj2
    · rename_i hc
      refine ⟨le_refl _, hu, ?_, hc⟩
      intro j h1 h2; omega

theorem gBlockSizes_mono : ∀ i < 13, ∀ j < 13, i < j → gBlockSizes.getD i 0 < gBlockSizes.getD j 0 := by
  decide

theorem blockSizeAt_lt (oob i : Nat) (hi : i < 13) : blockSizeAt oob i = gBlockSizes.getD i 0 := by
  unfold blockSizeAt gBlockSizes
  interval_cases i <;> rfl

theorem gBlockSizes_bounds : ∀ i < 13, 64 ≤ gBlockSizes.getD i 0 ∧ gBlockSizes.getD i 0 ≤ 0x10000000
    ∧ gBlockSizes.getD i 0 % 32 = 0 := by
  decide

theorem selectBlock_small (oob f : Nat) (hf : f ≤ 0x10000000) :
    selectBlock oob f < 13 ∧ f ≤ gBlockSizes.getD (selectBlock oob f) 0
      ∧ ∀ j < selectBlock oob f, gBlockSizes.getD j 0 < f := by
  obtain ⟨_, h2, h3, h4⟩ := scanBlock_spec oob f MM_BLOCKS 0 (by decide) (by decide)
  change selectBlock oob f ≤ MM_BLOCKS - 1 at h2
  change ∀ j, 0 ≤ j → j < selectBlock oob f → f > blockSizeAt oob j at h3
  change ¬ (f > blockSizeAt oob (selectBlock oob f) ∧ selectBlock oob f < MM_BLOCKS - 1) at h4
  have hlt : selectBlock oob f < 13 := by
    by_contra hc
    have h13 : 12 < selectBlock oob f := by omega
    have := h3 12 (by omega) h13
    rw [blockSizeAt_lt oob 12 (by omega)] at this
    have e : gBlockSizes.getD 12 0 = 0x10000000 := rfl
    omega
  refine ⟨hlt, ?_, ?_⟩
  · rw [blockSizeAt_lt oob _ hlt] at h4
    have : MM_BLOCKS = 14 := rfl
    by_contra hc
    apply h4
    constructor
    · omega
    · show selectBlock oob f < 14 - 1
      omega
  · intro j hj
    have := h3 j (by omega) hj
    rwa [blockSizeAt_lt oob j (by omega)] at this

/-- A request that is not oversized gets the smallest class that holds its footprint. -/
theorem allocSize_small (oob size : Nat) (hf : footprint size ≤ 0x10000000) :
    selectBlock oob (footprint size) < 13
      ∧ allocSize oob size = gBlockSizes.getD (selectBlock oob (footprint size)) 0
      ∧ footprint size ≤ allocSize oob size
      ∧ ∀ j < selectBlock oob (footprint size), gBlockSizes.getD j 0 < footprint size := by
  obtain ⟨h1, h2, h3⟩ := selectBlock_small oob (footprint size) hf
  have e : allocSize oob size = gBlockSizes.getD (selectBlock oob (footprint size)) 0 := by
    unfold allocSize
    simp only [blockSizeAt_lt oob _ h1]
    rw [if_neg (by omega)]
  exact ⟨h1, e, by omega, h3⟩

/-- A block of a class size is freed into the bucket of its class. -/
theorem freeBlock_class (oob k : Nat) (hk : k < 13) :
    freeBlock oob (gBlockSizes.getD k 0) = k := by
  have hb := (gBlockSizes_bounds k hk).2.1
  obtain ⟨h1, h2, h3⟩ := selectBlock_small oob (gBlockSizes.getD k 0) hb
  have e : selectBlock oob (gBlockSizes.getD k 0) = k := by
    rcases Nat.lt_trichotomy (selectBlock oob (gBlockSizes.getD k 0)) k with h | h | h
    · have := gBlockSizes_mono _ h1 k hk h
      omega
    · exact h
    · have := h3 k h
      omega
  unfold freeBlock
  simp only [e, blockSizeAt_lt oob k hk]
  rw [if_neg (by omega)]

theorem selectBlock_class (oob k : Nat) (hk : k < 13) :
    selectBlock oob (gBlockSizes.getD k 0) = k := by
  have hb := (gBlockSizes_bounds k hk).2.1
  obtain ⟨h1, h2, h3⟩ := selectBlock_small oob (gBlockSizes.getD k 0) hb
  rcases Nat.lt_trichotomy (selectBlock oob (gBlockSizes.getD k 0)) k with h | h | h
  · have := gBlockSizes_mono _ h1 k hk h
    omega
  · exact h
  · have := h3 k h
    omega

theorem gBlockSizes_inj (i j : Nat) (hi : i < 13) (hj : j < 13)
    (h : gBlockSizes.getD i 0 = gBlockSizes.getD j 0) : i = j := by
  rcases Nat.lt_trichotomy i j with h1 | h1 | h1
  · have := gBlockSizes_mono i hi j hj h1; omega
  · exact h1
  · have := gBlockSizes_mono j hj i hi h1; omega

/-! ## Tilings -/

theorem Tiles.bounds {base : Nat} : ∀ {B : List (Nat × Nat)} {top : Nat}, Tiles base top B →
    (∀ b ∈ B, 0 < b.2) → base ≤ top ∧ ∀ b ∈ B, base ≤ b.1 ∧ b.1 + b.2 ≤ top := by
  intro B
  induction B with
  | nil =>
    intro top ht _
    simp only [Tiles] at ht
    exact ⟨by omega, by simp⟩
  | cons c rest ih =>
    intro top ht hpos
    obtain ⟨h1, h2⟩ := ht
    obtain ⟨h3, h4⟩ := ih h2 (fun b hb => hpos b (List.mem_cons_of_mem _ hb))
    refine ⟨by omega, ?_⟩
    intro b hb
    rcases List.mem_cons.1 hb with rfl | hb
    · exact ⟨h3, by omega⟩
    · have := h4 b hb
      omega

theorem Tiles.disjoint {base : Nat} : ∀ {B : List (Nat × Nat)} {top : Nat}, Tiles base top B →
    (∀ b ∈ B, 0 < b.2) →
    ∀ b ∈ B, ∀ c ∈ B, b = c ∨ b.1 + b.2 ≤ c.1 ∨ c.1 + c.2 ≤ b.1 := by
  intro B
  induction B with
  | nil => intro top _ _ b hb; simp at hb
  | cons d rest ih =>
    intro top ht hpos b hb c hc
    obtain ⟨h1, h2⟩ := ht
    have hpos' : ∀ b ∈ rest, 0 < b.2 := fun b hb => hpos b (List.mem_cons_of_mem _ hb)
    have hbd := (Tiles.bounds h2 hpos').2
    rcases List.mem_cons.1 hb with e1 | hb1 <;> rcases List.mem_cons.1 hc with e2 | hc1
    · exact Or.inl (e1.trans e2.symm)
    · have := hbd c hc1
      rw [e1]
      exact Or.inr (Or.inr this.2)
    · have := hbd b hb1
      rw [e2]
      exact Or.inr (Or.inl this.2)
    · exact ih h2 hpos' b hb1 c hc1

theorem Tiles.top_eq {base : Nat} {B : List (Nat × Nat)} {top : Nat} (ht : Tiles base top B)
    (hpos : ∀ b ∈ B, 0 < b.2) (b : Nat × Nat) (hb : b ∈ B) (he : b.1 + b.2 = top) :
    ∃ rest, B = b :: rest := by
  cases B with
  | nil => simp at hb
  | cons d rest =>
    obtain ⟨h1, h2⟩ := ht
    have hpos' : ∀ b ∈ rest, 0 < b.2 := fun b hb => hpos b (List.mem_cons_of_mem _ hb)
    rcases List.mem_cons.1 hb with rfl | hb
    · exact ⟨rest, rfl⟩
    · have := ((Tiles.bounds h2 hpos').2 b hb).2
      have := hpos d (List.mem_cons_self _ _)
      omega

/-! ## Chains -/

theorem Links.frame {m m' : Mem} : ∀ {l : List Nat} {nxt p : Nat},
    (∀ h ∈ l, read32 m' (h + 12) = read32 m (h + 12) ∧ read32 m' (h + 16) = read32 m (h + 16)) →
    Links m nxt p l → Links m' nxt p l := by
  intro l
  induction l with
  | nil => intro nxt p _ h; exact h
  | cons a t ih =>
    intro nxt p hf h
    obtain ⟨h1, h2, h3, h4⟩ := h
    have ha := hf a (List.mem_cons_self _ _)
    refine ⟨h1, h2, by rw [ha.2]; exact h3, ?_⟩
    rw [ha.1]
    exact ih (fun h hh => hf h (List.mem_cons_of_mem _ hh)) h4

theorem Links.head_eq {m : Mem} {nxt p : Nat} {l : List Nat} (h : Links m nxt p l) :
    p = l.headD 0 := by
  cases l with
  | nil => exact h
  | cons a t => exact h.1

/-! ## Consequences of the invariant -/

section
variable {cfg : Config} {s : State} {L : List Nat} {B : List (Nat × Nat)} {F : Nat → List Nat}

theorem Inv.pos (hI : Inv cfg s L B F) : ∀ b ∈ B, 0 < b.2 := by
  intro b hb
  obtain ⟨k, hk, e⟩ := hI.cls b hb
  have := (gBlockSizes_bounds k hk).1
  omega

theorem Inv.blk (hI : Inv cfg s L B F) (b : Nat × Nat) (hb : b ∈ B) :
    64 ≤ b.2 ∧ b.2 ≤ 0x10000000 ∧ b.2 % 32 = 0 ∧ m_get_heap_start cfg ≤ b.1
      ∧ b.1 + b.2 ≤ frontier cfg s ∧ frontier cfg s < WORD := by
  obtain ⟨k, hk, e⟩ := hI.cls b hb
  have h1 := gBlockSizes_bounds k hk
  have h2 := (Tiles.bounds hI.tiles hI.pos).2 b hb
  have h3 := hI.top_lt
  rw [e] at h1
  exact ⟨h1.1, h1.2.1, h1.2.2, h2.1, h2.2, h3⟩

theorem Inv.sep (hI : Inv cfg s L B F) (b c : Nat × Nat) (hb : b ∈ B) (hc : c ∈ B) :
    b = c ∨ b.1 + 64 ≤ c.1 ∨ c.1 + 64 ≤ b.1 := by
  have h1 := (hI.blk b hb).1
  have h2 := (hI.blk c hc).1
  rcases Tiles.disjoint hI.tiles hI.pos b hb c hc with h | h | h
  · exact Or.inl h
  · exact Or.inr (Or.inl (by omega))
  · exact Or.inr (Or.inr (by omega))

theorem Inv.uniq (hI : Inv cfg s L B F) (h p q : Nat) (hp : (h, p) ∈ B) (hq : (h, q) ∈ B) :
    p = q := by
  rcases hI.sep (h, p) (h, q) hp hq with e | e | e
  · exact (Prod.mk.inj e).2
  · simp only at e; omega
  · simp only at e; omega

theorem Inv.empty_of_top (hI : Inv cfg s L B F) (h : frontier cfg s = m_get_heap_start cfg) :
    B = [] ∧ L = [] ∧ ∀ k, F k = [] := by
  have hB : B = [] := by
    cases hB : B with
    | nil => rfl
    | cons b rest =>
      have hb : b ∈ B := by rw [hB]; exact List.mem_cons_self _ _
      have := hI.blk b hb
      omega
  refine ⟨hB, ?_, ?_⟩
  · cases hL : L with
    | nil => rfl
    | cons a t =>
      obtain ⟨p, hp⟩ := hI.live_in a (by rw [hL]; exact List.mem_cons_self _ _)
      rw [hB] at hp
      simp at hp
  · intro k
    cases hF : F k with
    | nil => rfl
    | cons a t =>
      have := (hI.free_in k a (by rw [hF]; exact List.mem_cons_self _ _)).2.1
      rw [hB] at this
      simp at this

theorem frontier_lazyInit (cfg : Config) (s : State) :
    frontier cfg (lazyInit cfg s) = frontier cfg s := by
  unfold frontier lazyInit
  by_cases h : s.gHeapStart = 0
  · simp only [h, if_true]
    split <;> rfl
  · simp only [h, if_false]

theorem lazyInit_mem (cfg : Config) (s : State) :
    (lazyInit cfg s).mem = s.mem ∧ (lazyInit cfg s).gFreeList = s.gFreeList
      ∧ (lazyInit cfg s).gHeapUsed = s.gHeapUsed := by
  unfold lazyInit
  split <;> exact ⟨rfl, rfl, rfl⟩

theorem Inv.after_init (hI : Inv cfg s L B F) : Inv cfg (lazyInit cfg s) L B F := by
  obtain ⟨e1, e2, e3⟩ := lazyInit_mem cfg s
  refine ⟨?_, ?_, hI.cls, ?_, hI.live_nodup, hI.live_in, ?_, ?_, hI.free_in, hI.free_nodup,
    hI.cover, ?_, ?_, ?_, ?_⟩
  · rw [frontier_lazyInit]; exact hI.top_lt
  · rw [frontier_lazyInit]; exact hI.tiles
  · rw [e1]; exact hI.psz
  · rw [e1]; exact hI.magic
  · rw [e1]; exact hI.fits
  · rw [e1, e2]; exact hI.chain
  · rw [e1, e3]; exact hI.used
  · by_cases h : s.gHeapStart = 0
    · have hf : frontier cfg s = m_get_heap_start cfg := by
        unfold frontier lazyInit
        simp [h]
      have hL := (hI.empty_of_top hf).2.1
      have := hI.used
      rw [hL] at this
      rw [e3, this]
      simp
    · have : lazyInit cfg s = s := by
        unfold lazyInit
        simp [h]
      rw [this]
      exact hI.used_le
  · rw [e3]; exact hI.used_lt

end

/-! ## The four paths of `m_alloc` and `m_free` keep the invariant -/

section
variable {cfg : Config} {s : State} {L : List Nat} {B : List (Nat × Nat)} {F : Nat → List Nat}

theorem frontier_of_ne (cfg : Config) (s : State) (h : s.gHeapStart ≠ 0) :
    frontier cfg s = s.gHeapStart := by
  unfold frontier lazyInit
  rw [if_neg h]

theorem frontier_after_init (cfg : Config) (s : State) :
    frontier cfg (lazyInit cfg s) = (lazyInit cfg s).gHeapStart := by
  rw [frontier_lazyInit]
  rfl

/-- Carving a block of class `k` at the frontier keeps the invariant. -/
theorem Inv.carve (hI : Inv cfg s L B F) (hfr : frontier cfg s = s.gHeapStart) (k size : Nat)
    (hk : k < 13) (hsz : size % WORD + HEADER_SIZE ≤ gBlockSizes.getD k 0)
    (hnw : s.gHeapStart + gBlockSizes.getD k 0 < WORD)
    (hcap : s.gHeapUsed + gBlockSizes.getD k 0 ≤ s.gHeapMax)
    (hu : s.gHeapUsed + gBlockSizes.getD k 0 < WORD) :
    Inv cfg
      { s with
        gHeapStart := (s.gHeapStart + gBlockSizes.getD k 0) % WORD
        mem := writeHeader s.mem s.gHeapStart size (gBlockSizes.getD k 0)
        gHeapUsed := (s.gHeapUsed
          + read32 (writeHeader s.mem s.gHeapStart size (gBlockSizes.getD k 0)) (s.gHeapStart + 8))
            % WORD }
      (s.gHeapStart :: L) ((s.gHeapStart, gBlockSizes.getD k 0) :: B) F := by
  obtain ⟨hA1, hA2, hA3⟩ := gBlockSizes_bounds k hk
  generalize hA : gBlockSizes.getD k 0 = A at *
  generalize hh : s.gHeapStart = h at *
  have hAW : A % WORD = A := Nat.mod_eq_of_lt (by unfold WORD at *; omega)
  have hps : read32 (writeHeader s.mem h size A) (h + 8) = A := by
    rw [read32_writeHeader_psize, hAW]
  have hblk : ∀ b ∈ B, b.1 + 64 ≤ h := by
    intro b hb
    have := hI.blk b hb
    omega
  have hfrm : ∀ b ∈ B, ∀ c ≤ 16,
      read32 (writeHeader s.mem h size A) (b.1 + c) = read32 s.mem (b.1 + c) := by
    intro b hb c hc
    have := hblk b hb
    exact read32_writeHeader_sep _ _ _ _ _ (by omega) (by omega) (by omega)
  have hnotL : h ∉ L := by
    intro hc
    obtain ⟨p, hp⟩ := hI.live_in h hc
    have := hblk _ hp
    simp only at this
    omega
  have hfr' : frontier cfg
      { s with
        gHeapStart := (h + A) % WORD
        mem := writeHeader s.mem h size A
        gHeapUsed := (s.gHeapUsed + read32 (writeHeader s.mem h size A) (h + 8)) % WORD }
      = h + A := by
    rw [frontier_of_ne]
    · exact Nat.mod_eq_of_lt hnw
    · show (h + A) % WORD ≠ 0
      rw [Nat.mod_eq_of_lt hnw]
      omega
  refine ⟨?_, ?_, ?_, ?_, ?_, ?_, ?_, ?_, ?_, hI.free_nodup, ?_, ?_, ?_, ?_, ?_⟩
  · rw [hfr']; exact hnw
  · rw [hfr']
    exact ⟨rfl, by rw [← hfr]; exact hI.tiles⟩
  · intro b hb
    rcases List.mem_cons.1 hb with e | hb
    · exact ⟨k, hk, by rw [e, hA]⟩
    · exact hI.cls b hb
  · intro b hb
    rcases List.mem_cons.1 hb with e | hb
    · rw [e]; exact hps
    · exact (hfrm b hb 8 (by omega)).trans (hI.psz b hb)
  · exact List.nodup_cons.2 ⟨hnotL, hI.live_nodup⟩
  · intro a ha
    rcases List.mem_cons.1 ha with e | ha
    · exact ⟨A, by rw [e]; exact List.mem_cons_self _ _⟩
    · obtain ⟨p, hp⟩ := hI.live_in a ha
      exact ⟨p, List.mem_cons_of_mem _ hp⟩
  · intro a ha
    rcases List.mem_cons.1 ha with e | ha
    · rw [e]; exact read32_writeHeader_magic _ _ _ _
    · obtain ⟨p, hp⟩ := hI.live_in a ha
      exact (hfrm _ hp 0 (by omega)).trans (hI.magic a ha)
  · intro a ha p hp
    rcases List.mem_cons.1 hp with e | hp
    · obtain ⟨e1, e2⟩ := Prod.mk.inj e
      show read32 (writeHeader s.mem h size A) (a + 4) + HEADER_SIZE ≤ p
      rw [e1, e2, read32_writeHeader_size]
      exact hsz
    · have hne : a ≠ h := by
        intro e
        have := hblk _ hp
        simp only at this
        omega
      have haL : a ∈ L := by
        rcases List.mem_cons.1 ha with e | ha
        · exact absurd e hne
        · exact ha
      have := hI.fits a haL p hp
      show read32 (writeHeader s.mem h size A) (a + 4) + HEADER_SIZE ≤ p
      rw [hfrm _ hp 4 (by omega)]
      exact this
  · intro j a ha
    obtain ⟨h1, h2, h3⟩ := hI.free_in j a ha
    refine ⟨h1, List.mem_cons_of_mem _ h2, ?_⟩
    intro hc
    rcases List.mem_cons.1 hc with e | hc
    · have := hblk _ h2
      simp only at this
      omega
    · exact h3 hc
  · intro b hb
    rcases List.mem_cons.1 hb with e | hb
    · left; rw [e]; exact List.mem_cons_self _ _
    · rcases hI.cover b hb with h1 | h1
      · left; exact List.mem_cons_of_mem _ h1
      · right; exact h1
  · intro j
    apply Links.frame _ (hI.chain j)
    intro a ha
    have h2 := (hI.free_in j a ha).2.1
    exact ⟨hfrm _ h2 12 (by omega), hfrm _ h2 16 (by omega)⟩
  · show (s.gHeapUsed + read32 (writeHeader s.mem h size A) (h + 8)) % WORD = _
    rw [hps, Nat.mod_eq_of_lt hu, List.map_cons, List.sum_cons, hps, hI.used, Nat.add_comm]
    congr 1
    apply congrArg
    apply List.map_congr_left
    intro a ha
    obtain ⟨p, hp⟩ := hI.live_in a ha
    exact (hfrm _ hp 8 (by omega)).symm
  · show (s.gHeapUsed + read32 (writeHeader s.mem h size A) (h + 8)) % WORD ≤ s.gHeapMax
    rw [hps, Nat.mod_eq_of_lt hu]
    exact hcap
  · show (s.gHeapUsed + read32 (writeHeader s.mem h size A) (h + 8)) % WORD < WORD
    exact Nat.mod_lt _ (by decide)


theorem frontier_congr (cfg : Config) (s s' : State) (h : s'.gHeapStart = s.gHeapStart) :
    frontier cfg s' = frontier cfg s := by
  unfold frontier lazyInit
  rw [h]
  split <;> first | rfl | exact h

theorem frontier_upd (cfg : Config) (s : State) (u : Nat) (fl : Nat → Nat) (m : Mem) :
    frontier cfg { s with gHeapUsed := u, gFreeList := fl, mem := m } = frontier cfg s :=
  frontier_congr cfg s _ rfl

theorem Inv.bucket_uniq (hI : Inv cfg s L B F) (a j k : Nat) (hj : a ∈ F j) (hk : a ∈ F k) :
    j = k := by
  obtain ⟨h1, h2, _⟩ := hI.free_in j a hj
  obtain ⟨h3, h4, _⟩ := hI.free_in k a hk
  exact gBlockSizes_inj j k h1 h3 (hI.uniq a _ _ h2 h4)

/-- Reusing the head of free list `k` keeps the invariant. -/
theorem Inv.reuse (hI : Inv cfg s L B F) (k size h : Nat) (t : List Nat) (hF : F k = h :: t)
    (hsz : size % WORD + HEADER_SIZE ≤ gBlockSizes.getD k 0)
    (hcap : s.gHeapUsed + gBlockSizes.getD k 0 ≤ s.gHeapMax)
    (hu : s.gHeapUsed + gBlockSizes.getD k 0 < WORD) :
    s.gFreeList k = h ∧ h ≠ 0 ∧ read32 s.mem (h + 12) = t.headD 0 ∧
    Inv cfg
      { s with
        gFreeList := setList s.gFreeList k (read32 s.mem (h + 12))
        mem := writeHeader (if read32 s.mem (h + 12) ≠ 0
          then write32 s.mem (read32 s.mem (h + 12) + 16) 0 else s.mem) h size
            (gBlockSizes.getD k 0)
        gHeapUsed := (s.gHeapUsed
          + read32 (writeHeader (if read32 s.mem (h + 12) ≠ 0
              then write32 s.mem (read32 s.mem (h + 12) + 16) 0 else s.mem) h size
                (gBlockSizes.getD k 0)) (h + 8)) % WORD }
      (h :: L) B (setChain F k t) := by
  have hch := hI.chain k
  rw [hF] at hch
  obtain ⟨c1, c2, c3, c4⟩ := hch
  have hhead := Links.head_eq c4
  have hhF : h ∈ F k := by rw [hF]; exact List.mem_cons_self _ _
  obtain ⟨hk, hhB, hhL⟩ := hI.free_in k h hhF
  obtain ⟨hA1, hA2, hA3⟩ := gBlockSizes_bounds k hk
  have hnd := hI.free_nodup k
  rw [hF] at hnd
  obtain ⟨hht, htnd⟩ := List.nodup_cons.1 hnd
  refine ⟨c1, c2, hhead, ?_⟩
  generalize hA : gBlockSizes.getD k 0 = A at *
  generalize hq : read32 s.mem (h + 12) = q at *
  generalize hm1 : (if q ≠ 0 then write32 s.mem (q + 16) 0 else s.mem) = mem1
  have hAW : A % WORD = A := Nat.mod_eq_of_lt (by unfold WORD at *; omega)
  have hps : read32 (writeHeader mem1 h size A) (h + 8) = A := by
    rw [read32_writeHeader_psize, hAW]
  have hhb := hI.blk _ hhB
  simp only at hhb
  -- the new head, when there is one, is a block of the list
  have hqB : q ≠ 0 → q ∈ t ∧ (q, A) ∈ B ∧ q ≠ h := by
    intro hq0
    cases t with
    | nil => exact absurd hhead hq0
    | cons a t' =>
      have e : q = a := hhead
      have hin : q ∈ F k := by rw [hF, e]; exact List.mem_cons_of_mem _ (List.mem_cons_self _ _)
      have := (hI.free_in k q hin).2.1
      refine ⟨by rw [e]; exact List.mem_cons_self _ _, by rw [← hA]; exact this, ?_⟩
      intro hc
      apply hht
      rw [← hc, e]
      exact List.mem_cons_self _ _
  have hfrm1 : ∀ b ∈ B, ∀ c, (c ≤ 12 ∨ (c = 16 ∧ (q ≠ 0 → b.1 ≠ q))) →
      read32 mem1 (b.1 + c) = read32 s.mem (b.1 + c) := by
    intro b hb c hc
    rw [← hm1]
    by_cases hq0 : q = 0
    · rw [if_neg (by simpa using hq0)]
    · rw [if_pos hq0]
      obtain ⟨_, hqb, _⟩ := hqB hq0
      have h1 := hI.blk _ hqb
      have h2 := hI.blk b hb
      simp only at h1
      rcases hI.sep b (q, A) hb hqb with e | e | e
      · have e' : b.1 = q := by rw [e]
        have hc' : c ≤ 12 := by
          rcases hc with hc | hc
          · exact hc
          · exact absurd e' (hc.2 hq0)
        exact read32_write32_sep _ _ _ _ (by omega) (by omega) (by omega)
      · simp only at e
        exact read32_write32_sep _ _ _ _ (by omega) (by omega) (by omega)
      · simp only at e
        exact read32_write32_sep _ _ _ _ (by omega) (by omega) (by omega)
  have hfrm : ∀ b ∈ B, b.1 ≠ h → ∀ c, (c ≤ 12 ∨ (c = 16 ∧ (q ≠ 0 → b.1 ≠ q))) →
      read32 (writeHeader mem1 h size A) (b.1 + c) = read32 s.mem (b.1 + c) := by
    intro b hb hne c hc
    rw [← hfrm1 b hb c hc]
    have h2 := hI.blk b hb
    rcases hI.sep b (h, A) hb hhB with e | e | e
    · exact absurd (by rw [e]) hne
    · simp only at e
      exact read32_writeHeader_sep _ _ _ _ _ (by omega) (by omega) (by omega)
    · simp only at e
      exact read32_writeHeader_sep _ _ _ _ _ (by omega) (by omega) (by omega)
  have hLne : ∀ a ∈ L, a ≠ h := by
    intro a ha e
    exact hhL (e ▸ ha)
  -- nodes of the other lists, and of the rest of list `k`, are neither `h` nor the new head
  have hFne : ∀ j a, a ∈ F j → (j ≠ k ∨ (a ∈ t ∧ a ≠ q)) → a ≠ h ∧ (q ≠ 0 → a ≠ q) := by
    intro j a ha hj
    rcases hj with hj | hj
    · constructor
      · intro e
        exact hj (hI.bucket_uniq a j k ha (e ▸ hhF))
      · intro hq0 e
        have hin : q ∈ F k := by rw [hF]; exact List.mem_cons_of_mem _ (hqB hq0).1
        exact hj (hI.bucket_uniq a j k ha (e ▸ hin))
    · exact ⟨fun e => hht (e ▸ hj.1), fun _ => hj.2⟩
  refine ⟨?_, ?_, hI.cls, ?_, ?_, ?_, ?_, ?_, ?_, ?_, ?_, ?_, ?_, ?_, ?_⟩
  · rw [frontier_upd]; exact hI.top_lt
  · rw [frontier_upd]; exact hI.tiles
  · intro b hb
    show read32 (writeHeader mem1 h size A) (b.1 + 8) = b.2
    by_cases e : b.1 = h
    · have : b.2 = A := hI.uniq h _ _ (by rw [← e]; exact hb) hhB
      rw [e, this]
      exact hps
    · rw [hfrm b hb e 8 (Or.inl (by omega))]
      exact hI.psz b hb
  · exact List.nodup_cons.2 ⟨hhL, hI.live_nodup⟩
  · intro a ha
    rcases List.mem_cons.1 ha with e | ha
    · exact ⟨A, by rw [e]; exact hhB⟩
    · exact hI.live_in a ha
  · intro a ha
    show read32 (writeHeader mem1 h size A) a = MM_MAGIC
    rcases List.mem_cons.1 ha with e | ha
    · rw [e]; exact read32_writeHeader_magic _ _ _ _
    · obtain ⟨p, hp⟩ := hI.live_in a ha
      have := hfrm _ hp (hLne a ha) 0 (Or.inl (by omega))
      simp only [Nat.add_zero] at this
      rw [this]
      exact hI.magic a ha
  · intro a ha p hp
    show read32 (writeHeader mem1 h size A) (a + 4) + HEADER_SIZE ≤ p
    rcases List.mem_cons.1 ha with e | ha
    · have : p = A := hI.uniq h _ _ (by rw [← e]; exact hp) hhB
      rw [e, this, read32_writeHeader_size]
      exact hsz
    · rw [hfrm _ hp (hLne a ha) 4 (Or.inl (by omega))]
      exact hI.fits a ha p hp
  · intro j a ha
    unfold setChain at ha
    by_cases hj : j = k
    · rw [if_pos hj] at ha
      have haF : a ∈ F j := by rw [hj, hF]; exact List.mem_cons_of_mem _ ha
      obtain ⟨h1, h2, h3⟩ := hI.free_in j a haF
      refine ⟨h1, h2, ?_⟩
      intro hc
      rcases List.mem_cons.1 hc with e | hc
      · exact hht (e ▸ ha)
      · exact h3 hc
    · rw [if_neg hj] at ha
      obtain ⟨h1, h2, h3⟩ := hI.free_in j a ha
      refine ⟨h1, h2, ?_⟩
      intro hc
      rcases List.mem_cons.1 hc with e | hc
      · exact hj (hI.bucket_uniq a j k ha (e ▸ hhF))
      · exact h3 hc
  · intro j
    unfold setChain
    by_cases hj : j = k
    · rw [if_pos hj]; exact htnd
    · rw [if_neg hj]; exact hI.free_nodup j
  · intro b hb
    rcases hI.cover b hb with h1 | ⟨j, h1⟩
    · left; exact List.mem_cons_of_mem _ h1
    · by_cases hj : j = k
      · rw [hj, hF] at h1
        rcases List.mem_cons.1 h1 with e | h1
        · left; rw [e]; exact List.mem_cons_self _ _
        · right
          refine ⟨k, ?_⟩
          unfold setChain
          rw [if_pos rfl]
          exact h1
      · right
        refine ⟨j, ?_⟩
        unfold setChain
        rw [if_neg hj]
        exact h1
  · intro j
    show Links (writeHeader mem1 h size A) 0 (setList s.gFreeList k q j) (setChain F k t j)
    unfold setList setChain
    by_cases hj : j = k
    · rw [if_pos hj, if_pos hj]
      cases t with
      | nil => exact hhead
      | cons a t' =>
        obtain ⟨d1, d2, d3, d4⟩ := c4
        have hq0 : q ≠ 0 := by rw [d1]; exact d2
        have haB := (hqB hq0).2.1
        have hah := (hqB hq0).2.2
        obtain ⟨hat, _⟩ := List.nodup_cons.1 htnd
        refine ⟨d1, d2, ?_, ?_⟩
        · rw [← d1]
          have h1 := hI.blk _ haB
          simp only at h1
          have e1 : read32 (writeHeader mem1 h size A) (q + 16) = read32 mem1 (q + 16) := by
            have h2 := hI.blk _ hhB
            simp only at h2
            rcases hI.sep (q, A) (h, A) haB hhB with e | e | e
            · exact absurd (Prod.mk.inj e).1 hah
            · simp only at e
              exact read32_writeHeader_sep _ _ _ _ _ (by omega) (by omega) (by omega)
            · simp only at e
              exact read32_writeHeader_sep _ _ _ _ _ (by omega) (by omega) (by omega)
          rw [e1, ← hm1, if_pos hq0, read32_write32_same]
          rfl
        · have e2 : read32 (writeHeader mem1 h size A) (a + 12) = read32 s.mem (a + 12) := by
            have := hfrm (q, A) haB hah 12 (Or.inl (by omega))
            simp only at this
            rw [← d1]
            exact this
          rw [e2]
          apply Links.frame _ d4
          intro x hx
          have hxF : x ∈ F k := by
            rw [hF]
            exact List.mem_cons_of_mem _ (List.mem_cons_of_mem _ hx)
          have hxB := (hI.free_in k x hxF).2.1
          have hxq : x ≠ q := by
            intro e
            apply hat
            rw [← d1, ← e]
            exact hx
          have hxh : x ≠ h := fun e => hht (e ▸ List.mem_cons_of_mem _ hx)
          exact ⟨hfrm _ hxB hxh 12 (Or.inl (by omega)),
            hfrm _ hxB hxh 16 (Or.inr ⟨rfl, fun _ => hxq⟩)⟩
    · rw [if_neg hj, if_neg hj]
      apply Links.frame _ (hI.chain j)
      intro x hx
      have hxB := (hI.free_in j x hx).2.1
      obtain ⟨n1, n2⟩ := hFne j x hx (Or.inl hj)
      exact ⟨hfrm _ hxB n1 12 (Or.inl (by omega)), hfrm _ hxB n1 16 (Or.inr ⟨rfl, n2⟩)⟩
  · show (s.gHeapUsed + read32 (writeHeader mem1 h size A) (h + 8)) % WORD = _
    rw [hps, Nat.mod_eq_of_lt hu, List.map_cons, List.sum_cons, hps, hI.used, Nat.add_comm]
    congr 1
    apply congrArg
    apply List.map_congr_left
    intro a ha
    obtain ⟨p, hp⟩ := hI.live_in a ha
    exact (hfrm _ hp (hLne a ha) 8 (Or.inl (by omega))).symm
  · show (s.gHeapUsed + read32 (writeHeader mem1 h size A) (h + 8)) % WORD ≤ s.gHeapMax
    rw [hps, Nat.mod_eq_of_lt hu]
    exact hcap
  · show (s.gHeapUsed + read32 (writeHeader mem1 h size A) (h + 8)) % WORD < WORD
    exact Nat.mod_lt _ (by decide)

theorem sub32_of_le (a b : Nat) (ha : a < WORD) (hb : b ≤ a) : sub32 a b = a - b := by
  unfold sub32 WORD at *
  omega

/-- Facts about a live block that `m_free` relies on. -/
theorem Inv.live_blk (hI : Inv cfg s L B F) (h : Nat) (hL : h ∈ L) :
    ∃ p, (h, p) ∈ B ∧ read32 s.mem (h + 8) = p ∧ read32 s.mem h = MM_MAGIC
      ∧ h + p ≤ s.gHeapStart ∧ s.gHeapStart < WORD ∧ s.gHeapStart ≠ 0
      ∧ frontier cfg s = s.gHeapStart ∧ 64 ≤ p ∧ p ≤ s.gHeapUsed := by
  obtain ⟨p, hp⟩ := hI.live_in h hL
  have hb := hI.blk _ hp
  simp only at hb
  have hne : s.gHeapStart ≠ 0 := by
    intro h0
    have : frontier cfg s = m_get_heap_start cfg := by
      unfold frontier lazyInit
      simp [h0]
    have := (hI.empty_of_top this).1
    rw [this] at hp
    simp at hp
  have hfr := frontier_of_ne cfg s hne
  have hps := hI.psz _ hp
  simp only at hps
  refine ⟨p, hp, hps, hI.magic h hL, by omega, by omega, hne, hfr, hb.1, ?_⟩
  rw [hI.used, ← List.sum_map_erase _ hL, hps]
  omega

theorem headerOf_dataPtr (h : Nat) (h0 : h ≠ 0) (hlt : h + HEADER_SIZE < WORD) :
    dataPtr h = h + HEADER_SIZE ∧ dataPtr h ≠ 0 ∧ headerOf (dataPtr h) = h := by
  unfold dataPtr headerOf sub32
  rw [if_neg h0]
  unfold HEADER_SIZE WORD at *
  omega

/-- Freeing the topmost block rewinds the frontier and keeps the invariant. -/
theorem Inv.rewind (hI : Inv cfg s L B F) (h p : Nat) (hL : h ∈ L) (h0 : h ≠ 0)
    (hB : (h, p) ∈ B) (htop : h + p = s.gHeapStart) :
    ∃ rest, B = (h, p) :: rest ∧
    Inv cfg
      { s with
        mem := write32 s.mem h 0
        gHeapStart := h
        gHeapUsed := sub32 s.gHeapUsed (read32 (write32 s.mem h 0) (h + 8)) }
      (L.erase h) rest F := by
  obtain ⟨p', hp', l1, l2, l3, l4, l5, l6, l7, l8⟩ := hI.live_blk h hL
  have e := hI.uniq h _ _ hp' hB
  subst e
  obtain ⟨rest, hrest⟩ := Tiles.top_eq hI.tiles hI.pos (h, p') hB (by rw [l6]; exact htop)
  refine ⟨rest, hrest, ?_⟩
  have hsub : ∀ b ∈ rest, b ∈ B := fun b hb => by rw [hrest]; exact List.mem_cons_of_mem _ hb
  have ht := hI.tiles
  rw [hrest] at ht
  obtain ⟨t1, t2⟩ := ht
  have hposr : ∀ b ∈ rest, 0 < b.2 := fun b hb => hI.pos b (hsub b hb)
  have hbr := (Tiles.bounds t2 hposr).2
  simp only at hbr
  have hfrm : ∀ b ∈ B, b.1 ≠ h → ∀ c ≤ 16,
      read32 (write32 s.mem h 0) (b.1 + c) = read32 s.mem (b.1 + c) := by
    intro b hb hne c hc
    have h2 := hI.blk b hb
    rcases hI.sep b (h, p') hb hB with e | e | e
    · exact absurd (by rw [e]) hne
    · simp only at e
      exact read32_write32_sep _ _ _ _ (by omega) (by omega) (by omega)
    · simp only at e
      exact read32_write32_sep _ _ _ _ (by omega) (by omega) (by omega)
  have hps : read32 (write32 s.mem h 0) (h + 8) = p' := by
    rw [read32_write32_sep _ _ _ _ (by omega) (by omega) (by omega)]
    exact l1
  have hrne : ∀ b ∈ rest, b.1 ≠ h := by
    intro b hb e
    have h1 := (hbr b hb).2
    have h2 := hposr b hb
    omega
  have hfr' : frontier cfg
      { s with
        mem := write32 s.mem h 0
        gHeapStart := h
        gHeapUsed := sub32 s.gHeapUsed (read32 (write32 s.mem h 0) (h + 8)) } = h :=
    frontier_of_ne cfg _ h0
  have hmem : ∀ a, a ∈ L.erase h ↔ a ≠ h ∧ a ∈ L := fun a => hI.live_nodup.mem_erase_iff
  have hin : ∀ a q, a ≠ h → (a, q) ∈ B → (a, q) ∈ rest := by
    intro a q hne hq
    rw [hrest] at hq
    rcases List.mem_cons.1 hq with e | hq
    · exact absurd (Prod.mk.inj e).1 hne
    · exact hq
  refine ⟨?_, ?_, ?_, ?_, ?_, ?_, ?_, ?_, ?_, hI.free_nodup, ?_, ?_, ?_, ?_, ?_⟩
  · rw [hfr']; omega
  · rw [hfr']; exact t2
  · exact fun b hb => hI.cls b (hsub b hb)
  · intro b hb
    show read32 (write32 s.mem h 0) (b.1 + 8) = b.2
    rw [hfrm b (hsub b hb) (hrne b hb) 8 (by omega)]
    exact hI.psz b (hsub b hb)
  · exact hI.live_nodup.erase h
  · intro a ha
    obtain ⟨hne, haL⟩ := (hmem a).1 ha
    obtain ⟨q, hq⟩ := hI.live_in a haL
    exact ⟨q, hin a q hne hq⟩
  · intro a ha
    obtain ⟨hne, haL⟩ := (hmem a).1 ha
    obtain ⟨q, hq⟩ := hI.live_in a haL
    have := hfrm _ hq hne 0 (by omega)
    simp only [Nat.add_zero] at this
    show read32 (write32 s.mem h 0) a = MM_MAGIC
    rw [this]
    exact hI.magic a haL
  · intro a ha q hq
    obtain ⟨hne, haL⟩ := (hmem a).1 ha
    show read32 (write32 s.mem h 0) (a + 4) + HEADER_SIZE ≤ q
    rw [hfrm _ (hsub _ hq) hne 4 (by omega)]
    exact hI.fits a haL q (hsub _ hq)
  · intro j a ha
    obtain ⟨h1, h2, h3⟩ := hI.free_in j a ha
    have hne : a ≠ h := fun e => h3 (e ▸ hL)
    exact ⟨h1, hin a _ hne h2, fun hc => h3 (List.mem_of_mem_erase hc)⟩
  · intro b hb
    rcases hI.cover b (hsub b hb) with h1 | h1
    · left; exact (hmem b.1).2 ⟨hrne b hb, h1⟩
    · right; exact h1
  · intro j
    apply Links.frame _ (hI.chain j)
    intro a ha
    obtain ⟨h1, h2, h3⟩ := hI.free_in j a ha
    have hne : a ≠ h := fun e => h3 (e ▸ hL)
    exact ⟨hfrm _ h2 hne 12 (by omega), hfrm _ h2 hne 16 (by omega)⟩
  · show sub32 s.gHeapUsed (read32 (write32 s.mem h 0) (h + 8)) = _
    rw [hps, sub32_of_le _ _ hI.used_lt l8, hI.used, ← List.sum_map_erase _ hL, l1,
      Nat.add_sub_cancel_left]
    apply congrArg
    apply List.map_congr_left
    intro a ha
    obtain ⟨hne, haL⟩ := (hmem a).1 ha
    obtain ⟨q, hq⟩ := hI.live_in a haL
    exact (hfrm _ hq hne 8 (by omega)).symm
  · show sub32 s.gHeapUsed (read32 (write32 s.mem h 0) (h + 8)) ≤ s.gHeapMax
    rw [hps, sub32_of_le _ _ hI.used_lt l8]
    have := hI.used_le
    omega
  · show sub32 s.gHeapUsed (read32 (write32 s.mem h 0) (h + 8)) < WORD
    rw [hps, sub32_of_le _ _ hI.used_lt l8]
    have := hI.used_lt
    omega

/-- Pushing a live block that is not topmost onto the free list of its class keeps
the invariant. -/
theorem Inv.push (hI : Inv cfg s L B F) (h k : Nat) (hL : h ∈ L) (h0 : h ≠ 0) (hk : k < 13)
    (hB : (h, gBlockSizes.getD k 0) ∈ B) :
    s.gFreeList k = (F k).headD 0 ∧
    Inv cfg
      { s with
        gFreeList := setList s.gFreeList k h
        mem := write32 (write32 (if s.gFreeList k = 0 then s.mem
          else write32 s.mem (s.gFreeList k + 16) h) (h + 12) (s.gFreeList k)) (h + 16) 0
        gHeapUsed := sub32 s.gHeapUsed (read32 (write32 (write32 (if s.gFreeList k = 0 then s.mem
          else write32 s.mem (s.gFreeList k + 16) h) (h + 12) (s.gFreeList k)) (h + 16) 0)
            (h + 8)) }
      (L.erase h) B (setChain F k (h :: F k)) := by
  obtain ⟨p', hp', l1, l2, l3, l4, l5, l6, l7, l8⟩ := hI.live_blk h hL
  have e := hI.uniq h _ _ hp' hB
  subst e
  have hch := hI.chain k
  have hhead := Links.head_eq hch
  refine ⟨hhead, ?_⟩
  generalize hq : s.gFreeList k = q at *
  generalize hA : gBlockSizes.getD k 0 = A at *
  generalize hm1 : (if q = 0 then s.mem else write32 s.mem (q + 16) h) = mem1
  have hhb := hI.blk _ hB
  simp only at hhb
  have hhW : h % WORD = h := Nat.mod_eq_of_lt (by omega)
  have hqB : q ≠ 0 → q ∈ F k ∧ (q, A) ∈ B ∧ q ≠ h := by
    intro hq0
    cases hFk : F k with
    | nil => rw [hFk] at hhead; exact absurd hhead hq0
    | cons a t =>
      rw [hFk] at hhead
      have e : q = a := hhead
      have hin : q ∈ F k := by rw [hFk, e]; exact List.mem_cons_self _ _
      obtain ⟨_, h2, h3⟩ := hI.free_in k q hin
      rw [hFk] at hin
      exact ⟨hin, by rw [← hA]; exact h2, fun hc => h3 (hc ▸ hL)⟩
  have hqW : q % WORD = q := by
    by_cases hq0 : q = 0
    · rw [hq0]; rfl
    · have := hI.blk _ (hqB hq0).2.1
      simp only at this
      exact Nat.mod_eq_of_lt (by omega)
  have hfrm1 : ∀ b ∈ B, ∀ c, (c ≤ 12 ∨ (c = 16 ∧ (q ≠ 0 → b.1 ≠ q))) →
      read32 mem1 (b.1 + c) = read32 s.mem (b.1 + c) := by
    intro b hb c hc
    rw [← hm1]
    by_cases hq0 : q = 0
    · rw [if_pos hq0]
    · rw [if_neg hq0]
      obtain ⟨_, hqb, _⟩ := hqB hq0
      have h1 := hI.blk _ hqb
      have h2 := hI.blk b hb
      simp only at h1
      rcases hI.sep b (q, A) hb hqb with e | e | e
      · have e' : b.1 = q := by rw [e]
        have hc' : c ≤ 12 := by
          rcases hc with hc | hc
          · exact hc
          · exact absurd e' (hc.2 hq0)
        exact read32_write32_sep _ _ _ _ (by omega) (by omega) (by omega)
      · simp only at e
        exact read32_write32_sep _ _ _ _ (by omega) (by omega) (by omega)
      · simp only at e
        exact read32_write32_sep _ _ _ _ (by omega) (by omega) (by omega)
  have hfrm2 : ∀ b ∈ B, ∀ c, (c ≤ 16 ∧ (b.1 = h → c ≤ 8)) →
      read32 (write32 (write32 mem1 (h + 12) q) (h + 16) 0) (b.1 + c) = read32 mem1 (b.1 + c) := by
    intro b hb c hc
    have h2 := hI.blk b hb
    rcases hI.sep b (h, A) hb hB with e | e | e
    · have e' : b.1 = h := by rw [e]
      have := hc.2 e'
      rw [read32_write32_sep _ _ _ _ (by omega) (by omega) (by omega),
        read32_write32_sep _ _ _ _ (by omega) (by omega) (by omega)]
    · simp only at e
      rw [read32_write32_sep _ _ _ _ (by omega) (by omega) (by omega),
        read32_write32_sep _ _ _ _ (by omega) (by omega) (by omega)]
    · simp only at e
      rw [read32_write32_sep _ _ _ _ (by omega) (by omega) (by omega),
        read32_write32_sep _ _ _ _ (by omega) (by omega) (by omega)]
  have hfrm : ∀ b ∈ B, ∀ c, (c ≤ 8 ∨ (b.1 ≠ h ∧ (c = 12 ∨ (c = 16 ∧ (q ≠ 0 → b.1 ≠ q))))) →
      read32 (write32 (write32 mem1 (h + 12) q) (h + 16) 0) (b.1 + c) = read32 s.mem (b.1 + c) := by
    intro b hb c hc
    rw [hfrm2 b hb c (by
      rcases hc with hc | ⟨h1, hc | hc⟩
      · exact ⟨by omega, fun _ => hc⟩
      · exact ⟨by omega, fun e => absurd e h1⟩
      · exact ⟨by omega, fun e => absurd e h1⟩)]
    apply hfrm1 b hb c
    rcases hc with hc | ⟨h1, hc | hc⟩
    · exact Or.inl (by omega)
    · exact Or.inl (by omega)
    · exact Or.inr hc
  have hps : read32 (write32 (write32 mem1 (h + 12) q) (h + 16) 0) (h + 8) = A := by
    have := hfrm _ hB 8 (Or.inl (by omega))
    simp only at this
    rw [this]
    exact l1
  have hmem : ∀ a, a ∈ L.erase h ↔ a ≠ h ∧ a ∈ L := fun a => hI.live_nodup.mem_erase_iff
  have hhF : ∀ j, h ∉ F j := fun j hc => (hI.free_in j h hc).2.2 hL
  refine ⟨?_, ?_, hI.cls, ?_, ?_, ?_, ?_, ?_, ?_, ?_, ?_, ?_, ?_, ?_, ?_⟩
  · rw [frontier_upd]; exact hI.top_lt
  · rw [frontier_upd]; exact hI.tiles
  · intro b hb
    show read32 (write32 (write32 mem1 (h + 12) q) (h + 16) 0) (b.1 + 8) = b.2
    rw [hfrm b hb 8 (Or.inl (by omega))]
    exact hI.psz b hb
  · exact hI.live_nodup.erase h
  · intro a ha
    exact hI.live_in a ((hmem a).1 ha).2
  · intro a ha
    obtain ⟨hne, haL⟩ := (hmem a).1 ha
    obtain ⟨p, hp⟩ := hI.live_in a haL
    have := hfrm _ hp 0 (Or.inl (by omega))
    simp only [Nat.add_zero] at this
    show read32 (write32 (write32 mem1 (h + 12) q) (h + 16) 0) a = MM_MAGIC
    rw [this]
    exact hI.magic a haL
  · intro a ha p hp
    obtain ⟨hne, haL⟩ := (hmem a).1 ha
    show read32 (write32 (write32 mem1 (h + 12) q) (h + 16) 0) (a + 4) + HEADER_SIZE ≤ p
    rw [hfrm _ hp 4 (Or.inl (by omega))]
    exact hI.fits a haL p hp
  · intro j a ha
    unfold setChain at ha
    by_cases hj : j = k
    · rw [if_pos hj] at ha
      rcases List.mem_cons.1 ha with e | ha
      · refine ⟨by rw [hj]; exact hk, by rw [e, hj, hA]; exact hB, ?_⟩
        rw [e]
        exact hI.live_nodup.not_mem_erase
      · obtain ⟨h1, h2, h3⟩ := hI.free_in j a (by rw [hj]; exact ha)
        exact ⟨h1, h2, fun hc => h3 (List.mem_of_mem_erase hc)⟩
    · rw [if_neg hj] at ha
      obtain ⟨h1, h2, h3⟩ := hI.free_in j a ha
      exact ⟨h1, h2, fun hc => h3 (List.mem_of_mem_erase hc)⟩
  · intro j
    unfold setChain
    by_cases hj : j = k
    · rw [if_pos hj]; exact List.nodup_cons.2 ⟨hhF k, hI.free_nodup k⟩
    · rw [if_neg hj]; exact hI.free_nodup j
  · intro b hb
    rcases hI.cover b hb with h1 | ⟨j, h1⟩
    · by_cases e : b.1 = h
      · right
        refine ⟨k, ?_⟩
        unfold setChain
        rw [if_pos rfl, e]
        exact List.mem_cons_self _ _
      · left; exact (hmem b.1).2 ⟨e, h1⟩
    · right
      refine ⟨j, ?_⟩
      unfold setChain
      by_cases hj : j = k
      · rw [if_pos hj]; exact List.mem_cons_of_mem _ (hj ▸ h1)
      · rw [if_neg hj]; exact h1
  · intro j
    show Links (write32 (write32 mem1 (h + 12) q) (h + 16) 0) 0 (setList s.gFreeList k h j)
      (setChain F k (h :: F k) j)
    unfold setList setChain
    by_cases hj : j = k
    · rw [if_pos hj, if_pos hj]
      refine ⟨rfl, h0, ?_, ?_⟩
      · rw [read32_write32_same]; rfl
      · have e1 : read32 (write32 (write32 mem1 (h + 12) q) (h + 16) 0) (h + 12) = q := by
          rw [read32_write32_sep _ _ _ _ (by omega) (by omega) (by omega), read32_write32_same]
          exact hqW
        rw [e1]
        cases hFk : F k with
        | nil => rw [hFk] at hhead; exact hhead
        | cons a t =>
          rw [hFk] at hch hhead
          obtain ⟨d1, d2, d3, d4⟩ := hch
          subst d1
          have hq0 : q ≠ 0 := d2
          obtain ⟨_, haB, hah⟩ := hqB hq0
          have hnd := hI.free_nodup k
          rw [hFk] at hnd
          obtain ⟨hat, _⟩ := List.nodup_cons.1 hnd
          refine ⟨rfl, d2, ?_, ?_⟩
          · have h1 := hI.blk _ haB
            simp only at h1
            have e2 := hfrm2 _ haB 16 ⟨by omega, fun e => absurd e hah⟩
            simp only at e2
            rw [e2, ← hm1, if_neg hq0, read32_write32_same]
            exact hhW
          · have e2 := hfrm _ haB 12 (Or.inr ⟨hah, Or.inl rfl⟩)
            simp only at e2
            rw [e2]
            apply Links.frame _ d4
            intro x hx
            have hxF : x ∈ F k := by rw [hFk]; exact List.mem_cons_of_mem _ hx
            obtain ⟨_, hxB, hxL⟩ := hI.free_in k x hxF
            have hxh : x ≠ h := fun e => hxL (e ▸ hL)
            have hxq : x ≠ q := fun e => hat (e ▸ hx)
            exact ⟨hfrm _ hxB 12 (Or.inr ⟨hxh, Or.inl rfl⟩),
              hfrm _ hxB 16 (Or.inr ⟨hxh, Or.inr ⟨rfl, fun _ => hxq⟩⟩)⟩
    · rw [if_neg hj, if_neg hj]
      apply Links.frame _ (hI.chain j)
      intro x hx
      obtain ⟨_, hxB, hxL⟩ := hI.free_in j x hx
      have hxh : x ≠ h := fun e => hxL (e ▸ hL)
      have hxq : q ≠ 0 → x ≠ q := by
        intro hq0 e
        exact hj (hI.bucket_uniq x j k hx (e ▸ (hqB hq0).1))
      exact ⟨hfrm _ hxB 12 (Or.inr ⟨hxh, Or.inl rfl⟩),
        hfrm _ hxB 16 (Or.inr ⟨hxh, Or.inr ⟨rfl, hxq⟩⟩)⟩
  · show sub32 s.gHeapUsed (read32 (write32 (write32 mem1 (h + 12) q) (h + 16) 0) (h + 8)) = _
    rw [hps, sub32_of_le _ _ hI.used_lt l8, hI.used, ← List.sum_map_erase _ hL, l1,
      Nat.add_sub_cancel_left]
    apply congrArg
    apply List.map_congr_left
    intro a ha
    obtain ⟨hne, haL⟩ := (hmem a).1 ha
    obtain ⟨p, hp⟩ := hI.live_in a haL
    exact (hfrm _ hp 8 (Or.inl (by omega))).symm
  · show sub32 s.gHeapUsed (read32 (write32 (write32 mem1 (h + 12) q) (h + 16) 0) (h + 8))
      ≤ s.gHeapMax
    rw [hps, sub32_of_le _ _ hI.used_lt l8]
    have := hI.used_le
    omega
  · show sub32 s.gHeapUsed (read32 (write32 (write32 mem1 (h + 12) q) (h + 16) 0) (h + 8)) < WORD
    rw [hps, sub32_of_le _ _ hI.used_lt l8]
    have := hI.used_lt
    omega

end

/-! ## Outcomes of well-formed calls -/

section
variable {cfg : Config} {s : State} {L : List Nat} {B : List (Nat × Nat)} {F : Nat → List Nat}

/-- The three outcomes of a well-formed `m_alloc` in a state that satisfies the
invariant: out of memory, reuse of the head of the class list, a fresh carve. -/
theorem Inv.alloc (hI : Inv cfg s L B F) (oob size : Nat) (hok : allocOk cfg oob size s) :
    selectBlock oob (footprint size) < 13 ∧
    allocSize oob size = gBlockSizes.getD (selectBlock oob (footprint size)) 0 ∧
    (((lazyInit cfg s).gHeapMax < (lazyInit cfg s).gHeapUsed + allocSize oob size ∧
        m_alloc_hdr cfg oob size s = (none, lazyInit cfg s))
      ∨ ((lazyInit cfg s).gHeapUsed + allocSize oob size ≤ (lazyInit cfg s).gHeapMax ∧
        ∃ h t s', F (selectBlock oob (footprint size)) = h :: t ∧ h ≠ 0 ∧
          m_alloc_hdr cfg oob size s = (some h, s') ∧
          Inv cfg s' (h :: L) B (setChain F (selectBlock oob (footprint size)) t) ∧
          s'.gHeapStart = (lazyInit cfg s).gHeapStart ∧
          s'.gHeapUsed = (lazyInit cfg s).gHeapUsed + allocSize oob size ∧
          s'.gHeapMax = (lazyInit cfg s).gHeapMax ∧
          s'.gFreeList = setList s.gFreeList (selectBlock oob (footprint size)) (t.headD 0))
      ∨ ((lazyInit cfg s).gHeapUsed + allocSize oob size ≤ (lazyInit cfg s).gHeapMax ∧
        F (selectBlock oob (footprint size)) = [] ∧
        ∃ s', m_alloc_hdr cfg oob size s = (some (lazyInit cfg s).gHeapStart, s') ∧
          Inv cfg s' ((lazyInit cfg s).gHeapStart :: L)
            (((lazyInit cfg s).gHeapStart, allocSize oob size) :: B) F ∧
          s'.gHeapStart = (lazyInit cfg s).gHeapStart + allocSize oob size ∧
          s'.gHeapUsed = (lazyInit cfg s).gHeapUsed + allocSize oob size ∧
          s'.gHeapMax = (lazyInit cfg s).gHeapMax ∧
          s'.gFreeList = s.gFreeList)) := by
  obtain ⟨w1, w2, w3, w4⟩ := hok
  obtain ⟨c1, c2, c3, c4⟩ := allocSize_small oob size w2
  obtain ⟨f1, f2, f3⟩ := footprint_bounds size w1
  have hI1 := hI.after_init
  have hfr := frontier_after_init cfg s
  obtain ⟨e1, e2, e3⟩ := lazyInit_mem cfg s
  have hsz : size % WORD + HEADER_SIZE ≤ gBlockSizes.getD (selectBlock oob (footprint size)) 0 := by
    rw [← c2, Nat.mod_eq_of_lt (by omega)]
    omega
  refine ⟨c1, c2, ?_⟩
  unfold m_alloc_hdr
  simp only []
  generalize hk : selectBlock oob (footprint size) = k at *
  generalize hs1 : lazyInit cfg s = s1 at *
  rw [Nat.mod_eq_of_lt w3]
  by_cases hcap : s1.gHeapUsed + allocSize oob size > s1.gHeapMax
  · left
    rw [if_pos hcap]
    exact ⟨hcap, rfl⟩
  · right
    rw [if_neg hcap]
    have hcap' : s1.gHeapUsed + allocSize oob size ≤ s1.gHeapMax := by omega
    have hch := hI1.chain k
    cases hFk : F k with
    | nil =>
      right
      rw [hFk] at hch
      have hz : s1.gFreeList k = 0 := hch
      have hnw := w4 hcap' hz
      rw [if_neg (by simpa using hz)]
      refine ⟨hcap', rfl, _, rfl, ?_, ?_, ?_, rfl, e2⟩
      · have := hI1.carve hfr k size c1 hsz (by rw [← c2]; exact hnw) (by rw [← c2]; exact hcap')
          (by rw [← c2]; exact w3)
        rw [← c2] at this
        exact this
      · exact Nat.mod_eq_of_lt hnw
      · show (s1.gHeapUsed + read32 (writeHeader s1.mem s1.gHeapStart size (allocSize oob size))
          (s1.gHeapStart + 8)) % WORD = _
        rw [read32_writeHeader_psize, Nat.mod_eq_of_lt (by omega : allocSize oob size < WORD),
          Nat.mod_eq_of_lt w3]
    | cons h t =>
      left
      obtain ⟨r1, r2, r3, r4⟩ := hI1.reuse k size h t hFk hsz (by rw [← c2]; exact hcap')
        (by rw [← c2]; exact w3)
      rw [if_pos (by rw [r1]; exact r2), r1]
      refine ⟨hcap', h, t, _, rfl, r2, rfl, ?_, rfl, ?_, rfl, ?_⟩
      · rw [← c2] at r4
        exact r4
      · show (s1.gHeapUsed + read32 (writeHeader _ h size (allocSize oob size)) (h + 8)) % WORD = _
        rw [read32_writeHeader_psize, Nat.mod_eq_of_lt (by omega : allocSize oob size < WORD),
          Nat.mod_eq_of_lt w3]
      · show setList s1.gFreeList k (read32 s1.mem (h + 12)) = _
        rw [r3, e2]

/-- The two outcomes of a well-formed `m_free` in a state that satisfies the
invariant: the rewind of the frontier, the push onto the list of the class. -/
theorem Inv.free (hI : Inv cfg s L B F) (oob ptr : Nat) (hok : freeOk ptr L) :
    ∃ h p k, ptr = h + HEADER_SIZE ∧ headerOf ptr = h ∧ h ∈ L ∧ h ≠ 0 ∧ (h, p) ∈ B ∧ k < 13 ∧
      p = gBlockSizes.getD k 0 ∧ p ≤ s.gHeapUsed ∧
      (m_free oob ptr s).gHeapUsed = s.gHeapUsed - p ∧
      (m_free oob ptr s).gHeapMax = s.gHeapMax ∧
      ((h + p = s.gHeapStart ∧ ∃ rest, B = (h, p) :: rest ∧
          Inv cfg (m_free oob ptr s) (L.erase h) rest F ∧
          (m_free oob ptr s).gHeapStart = h ∧
          (m_free oob ptr s).gFreeList = s.gFreeList)
        ∨ (h + p ≠ s.gHeapStart ∧
          Inv cfg (m_free oob ptr s) (L.erase h) B (setChain F k (h :: F k)) ∧
          (m_free oob ptr s).gHeapStart = s.gHeapStart ∧
          (m_free oob ptr s).gFreeList = setList s.gFreeList k h)) := by
  obtain ⟨hp0, h, hL, h0, hd⟩ := hok
  obtain ⟨p, hB, l1, l2, l3, l4, l5, l6, l7, l8⟩ := hI.live_blk h hL
  obtain ⟨k, hk, hkp⟩ := hI.cls _ hB
  simp only at hkp
  obtain ⟨d1, d2, d3⟩ := headerOf_dataPtr h h0 (by unfold HEADER_SIZE; omega)
  rw [hd] at d1 d3
  have hlt : h + p < WORD := by omega
  have hused := hI.used_lt
  have hfb : freeBlock oob p = k := by rw [← hkp]; exact freeBlock_class oob k hk
  refine ⟨h, p, k, d1, d3, hL, h0, hB, hk, hkp.symm, l8, ?_⟩
  unfold m_free
  rw [if_neg hp0]
  simp only [d3]
  rw [if_neg (by simpa using l2), l1, Nat.mod_eq_of_lt hlt]
  by_cases htop : h + p = s.gHeapStart
  · rw [if_pos htop]
    obtain ⟨rest, hrest, hinv⟩ := hI.rewind h p hL h0 hB htop
    have hps : read32 (write32 s.mem h 0) (h + 8) = p := by
      rw [read32_write32_sep _ _ _ _ (by omega) (by omega) (by omega)]
      exact l1
    refine ⟨?_, rfl, Or.inl ⟨htop, rest, hrest, hinv, rfl, rfl⟩⟩
    show sub32 s.gHeapUsed (read32 (write32 s.mem h 0) (h + 8)) = _
    rw [hps, sub32_of_le _ _ hused l8]
  · rw [if_neg htop, hfb]
    have hB' : (h, gBlockSizes.getD k 0) ∈ B := by rw [hkp]; exact hB
    obtain ⟨hhead, hinv⟩ := hI.push h k hL h0 hk hB'
    have hu := hinv.used
    refine ⟨?_, rfl, Or.inr ⟨htop, hinv, rfl, rfl⟩⟩
    have hsum := hI.used
    rw [← List.sum_map_erase _ hL, l1] at hsum
    have hpsz := hinv.psz _ hB
    simp only at hpsz
    show sub32 s.gHeapUsed (read32 _ (h + 8)) = _
    rw [hpsz, sub32_of_le _ _ hused l8]

end

/-! ## Reachable states -/

/-- The initial state satisfies the invariant, with no block at all. -/
theorem inv_init (cfg : Config) (m0 : Mem) : Inv cfg (initState m0) [] [] (fun _ => []) := by
  have hf : frontier cfg (initState m0) = m_get_heap_start cfg := by
    unfold frontier lazyInit initState
    simp
  refine ⟨?_, ?_, ?_, ?_, List.nodup_nil, ?_, ?_, ?_, ?_, ?_, ?_, ?_, rfl, ?_, ?_⟩
  · rw [hf]; exact Nat.mod_lt _ (by decide)
  · rw [hf]; rfl
  · intro b hb; simp at hb
  · intro b hb; simp at hb
  · intro h hh; simp at hh
  · intro h hh; simp at hh
  · intro h hh; simp at hh
  · intro k h hh; simp at hh
  · intro k; exact List.nodup_nil
  · intro b hb; simp at hb
  · intro k; rfl
  · exact Nat.le_refl _
  · show 0 < WORD
    decide

/-- One well-formed call keeps the invariant. -/
theorem step_inv {cfg : Config} {s s' : State} {L L' : List Nat} {B : List (Nat × Nat)}
    {F : Nat → List Nat} (hI : Inv cfg s L B F) (op : Op)
    (hstep : step cfg op (s, L) = some (s', L')) : ∃ B' F', Inv cfg s' L' B' F' := by
  cases op with
  | alloc size oob =>
    simp only [step] at hstep
    split at hstep
    · rename_i hok
      obtain ⟨_, _, h1 | h1 | h1⟩ := hI.alloc oob size hok
      · obtain ⟨_, e⟩ := h1
        rw [e] at hstep
        simp only [Option.some.injEq, Prod.mk.injEq] at hstep
        obtain ⟨e1, e2⟩ := hstep
        subst e1 e2
        exact ⟨B, F, hI.after_init⟩
      · obtain ⟨_, h, t, s2, _, _, e, hinv, _⟩ := h1
        rw [e] at hstep
        simp only [Option.some.injEq, Prod.mk.injEq] at hstep
        obtain ⟨e1, e2⟩ := hstep
        subst e1 e2
        exact ⟨_, _, hinv⟩
      · obtain ⟨_, _, s2, e, hinv, _⟩ := h1
        rw [e] at hstep
        simp only [Option.some.injEq, Prod.mk.injEq] at hstep
        obtain ⟨e1, e2⟩ := hstep
        subst e1 e2
        exact ⟨_, _, hinv⟩
    · exact absurd hstep (by simp)
  | free ptr oob =>
    simp only [step] at hstep
    split at hstep
    · rename_i hok
      obtain ⟨h, p, k, _, e, _, _, _, _, _, _, _, _, h1 | h1⟩ := hI.free oob ptr hok
      · obtain ⟨_, rest, _, hinv, _⟩ := h1
        simp only [Option.some.injEq, Prod.mk.injEq] at hstep
        obtain ⟨e1, e2⟩ := hstep
        rw [e] at e2
        subst e1 e2
        exact ⟨_, _, hinv⟩
      · obtain ⟨_, hinv, _⟩ := h1
        simp only [Option.some.injEq, Prod.mk.injEq] at hstep
        obtain ⟨e1, e2⟩ := hstep
        rw [e] at e2
        subst e1 e2
        exact ⟨_, _, hinv⟩
    · exact absurd hstep (by simp)

/-- A sequence of well-formed calls keeps the invariant. -/
theorem runFrom_inv {cfg : Config} : ∀ (ops : List Op) {s s' : State} {L L' : List Nat}
    {B : List (Nat × Nat)} {F : Nat → List Nat}, Inv cfg s L B F →
    runFrom cfg ops (s, L) = some (s', L') → ∃ B' F', Inv cfg s' L' B' F' := by
  intro ops
  induction ops with
  | nil =>
    intro s s' L L' B F hI h
    simp only [runFrom, Option.some.injEq, Prod.mk.injEq] at h
    obtain ⟨e1, e2⟩ := h
    subst e1 e2
    exact ⟨B, F, hI⟩
  | cons op ops ih =>
    intro s s' L L' B F hI h
    simp only [runFrom] at h
    cases hs : step cfg op (s, L) with
    | none => rw [hs] at h; simp at h
    | some st =>
      rw [hs] at h
      obtain ⟨s1, L1⟩ := st
      obtain ⟨B1, F1, hI1⟩ := step_inv hI op hs
      exact ih hI1 h

/-- Every state reached by well-formed calls from the initial state satisfies the
invariant. -/
theorem run_inv {cfg : Config} {m0 : Mem} {ops : List Op} {s : State} {L : List Nat}
    (h : run cfg m0 ops = some (s, L)) : ∃ B F, Inv cfg s L B F :=
  runFrom_inv ops (inv_init cfg m0) h

/-! ## Calls in an arbitrary state -/

theorem read32_mod_addr (m : Mem) (a c : Nat) : read32 m (a % WORD + c) = read32 m (a + c) := by
  unfold read32
  have e : ∀ d, (a % WORD + c + d) % WORD = (a + c + d) % WORD := by
    intro d
    unfold WORD
    omega
  have e0 := e 0
  simp only [Nat.add_zero] at e0
  rw [e0, e 1, e 2, e 3]

theorem headerOf_dataPtr_mod (h : Nat) (h0 : h ≠ 0) : headerOf (dataPtr h) = h % WORD := by
  unfold headerOf dataPtr sub32
  rw [if_neg h0]
  unfold HEADER_SIZE WORD
  omega

theorem allocSize_lt (oob size : Nat) : allocSize oob size < WORD := by
  unfold allocSize
  simp only []
  split
  · exact (footprint_lt size).1
  · unfold blockSizeAt
    by_cases h : selectBlock oob (footprint size) < 13
    · have e := blockSizeAt_lt oob _ h
      unfold blockSizeAt at e
      rw [e]
      have := (gBlockSizes_bounds _ h).2.1
      unfold WORD
      omega
    · rw [List.getD_eq_default _ _ (by
        show gBlockSizes.length ≤ _
        have : gBlockSizes.length = 13 := rfl
        omega)]
      exact Nat.mod_lt _ (by decide)

/-- What a call of `m_alloc` that hands out a block leaves behind: the header of
the block carries the magic, the requested size and the block size. -/
theorem m_alloc_hdr_some (cfg : Config) (oob size : Nat) (s s' : State) (h : Nat)
    (ha : m_alloc_hdr cfg oob size s = (some h, s')) :
    read32 s'.mem h = MM_MAGIC ∧ read32 s'.mem (h + 4) = size % WORD
      ∧ read32 s'.mem (h + 8) = allocSize oob size
      ∧ s'.gHeapUsed = (s.gHeapUsed + allocSize oob size) % WORD
      ∧ ¬ ((s.gHeapUsed + allocSize oob size) % WORD > (lazyInit cfg s).gHeapMax) := by
  have hA := Nat.mod_eq_of_lt (allocSize_lt oob size)
  obtain ⟨_, _, e3⟩ := lazyInit_mem cfg s
  unfold m_alloc_hdr at ha
  simp only [] at ha
  rw [e3] at ha
  split at ha
  · exact absurd ha (by simp)
  · rename_i hcap
    split at ha
    · simp only [Prod.mk.injEq, Option.some.injEq] at ha
      obtain ⟨e1, e2⟩ := ha
      subst e1 e2
      refine ⟨read32_writeHeader_magic _ _ _ _, read32_writeHeader_size _ _ _ _, ?_, ?_, hcap⟩
      · show read32 (writeHeader _ _ _ _) _ = _
        rw [read32_writeHeader_psize, hA]
      · show (s.gHeapUsed + read32 (writeHeader _ _ _ _) _) % WORD = _
        rw [read32_writeHeader_psize, hA]
    · simp only [Prod.mk.injEq, Option.some.injEq] at ha
      obtain ⟨e1, e2⟩ := ha
      subst e1 e2
      refine ⟨read32_writeHeader_magic _ _ _ _, read32_writeHeader_size _ _ _ _, ?_, ?_, hcap⟩
      · show read32 (writeHeader _ _ _ _) _ = _
        rw [read32_writeHeader_psize, hA]
      · show (s.gHeapUsed + read32 (writeHeader _ _ _ _) _) % WORD = _
        rw [read32_writeHeader_psize, hA]

/-- A non-null result of `m_alloc` is the data pointer of the header it wrote. -/
theorem m_alloc_ne_zero (cfg : Config) (oob size : Nat) (s s' : State) (p : Nat)
    (ha : m_alloc cfg oob size s = (p, s')) (hp : p ≠ 0) :
    ∃ h, h ≠ 0 ∧ m_alloc_hdr cfg oob size s = (some h, s') ∧ p = dataPtr h
      ∧ p = (h + HEADER_SIZE) % WORD ∧ headerOf p = h % WORD := by
  unfold m_alloc at ha
  split at ha
  · simp only [Prod.mk.injEq] at ha
    exact absurd ha.1.symm hp
  · rename_i h s1 heq
    simp only [Prod.mk.injEq] at ha
    obtain ⟨e1, e2⟩ := ha
    subst e2
    have h0 : h ≠ 0 := by
      intro hc
      rw [hc] at e1
      exact hp e1.symm
    refine ⟨h, h0, heq, e1.symm, ?_, ?_⟩
    · rw [← e1]
      unfold dataPtr
      rw [if_neg h0]
    · rw [← e1]
      exact headerOf_dataPtr_mod h h0

/-! ## Returned pointers -/

/-- For a size that fits a class the scan does not depend on the word behind the
table. -/
theorem selectBlock_indep (oob oob' f : Nat) (hf : f ≤ 0x10000000) :
    selectBlock oob f = selectBlock oob' f := by
  obtain ⟨a1, a2, a3⟩ := selectBlock_small oob f hf
  obtain ⟨b1, b2, b3⟩ := selectBlock_small oob' f hf
  rcases Nat.lt_trichotomy (selectBlock oob f) (selectBlock oob' f) with h | h | h
  · have := b3 _ h
    omega
  · exact h
  · have := a3 _ h
    omega

theorem allocSize_indep (oob oob' size : Nat) (hf : footprint size ≤ 0x10000000) :
    allocSize oob size = allocSize oob' size := by
  rw [(allocSize_small oob size hf).2.1, (allocSize_small oob' size hf).2.1,
    selectBlock_indep oob oob' _ hf]

theorem m_alloc_of_hdr (cfg : Config) (oob size : Nat) (s s' : State) (h : Nat)
    (e : m_alloc_hdr cfg oob size s = (some h, s')) :
    m_alloc cfg oob size s = (dataPtr h, s') := by
  unfold m_alloc
  rw [e]

theorem lazyInit_of_ne (cfg : Config) (s : State) (h : s.gHeapStart ≠ 0) : lazyInit cfg s = s := by
  unfold lazyInit
  rw [if_neg h]

section
variable {cfg : Config} {s : State} {L : List Nat} {B : List (Nat × Nat)} {F : Nat → List Nat}

end

/-! ## Runs of frees followed by runs of allocations -/

theorem setChain_same (F : Nat → List Nat) (k : Nat) (l : List Nat) : setChain F k l k = l := by
  unfold setChain
  rw [if_pos rfl]

theorem setChain_self (F : Nat → List Nat) (k : Nat) : setChain F k (F k) = F := by
  funext i
  unfold setChain
  split
  · rename_i h; rw [h]
  · rfl

theorem setChain_twice (F : Nat → List Nat) (k : Nat) (l l' : List Nat) :
    setChain (setChain F k l) k l' = setChain F k l' := by
  funext i
  unfold setChain
  split <;> rfl

section
variable {cfg : Config}

/-- Frees of live blocks of class `k`, none of them topmost when freed, push the
blocks onto free list `k` one after the other and leave the frontier alone. -/
theorem freeAll_push (oob k : Nat) (hk : k < 13) : ∀ (as : List Nat) {s : State} {L : List Nat}
    {B : List (Nat × Nat)} {F : Nat → List Nat}, Inv cfg s L B F →
    (∀ a ∈ as, freeOk a L) → as.Nodup → (∀ a ∈ as, (headerOf a, gBlockSizes.getD k 0) ∈ B) →
    notTopWhenFreed oob as s →
    ∃ L', Inv cfg (freeAll oob as s) L' B (setChain F k ((as.map headerOf).reverse ++ F k))
      ∧ (freeAll oob as s).gHeapStart = s.gHeapStart
      ∧ (freeAll oob as s).gHeapUsed + as.length * gBlockSizes.getD k 0 = s.gHeapUsed
      ∧ (freeAll oob as s).gHeapMax = s.gHeapMax := by
  intro as
  induction as with
  | nil =>
    intro s L B F hI _ _ _ _
    refine ⟨L, ?_, rfl, by simp [freeAll], rfl⟩
    simp only [List.map_nil, List.reverse_nil, List.nil_append, freeAll]
    rw [setChain_self]
    exact hI
  | cons a as ih =>
    intro s L B F hI hlive hnd hB hnt
    obtain ⟨hnt1, hnt2⟩ := hnt
    obtain ⟨hna, hnd'⟩ := List.nodup_cons.1 hnd
    have hfa := hlive a (List.mem_cons_self _ _)
    obtain ⟨h, p, k', f1, f2, f3, f4, f5, f6, f7, f8, f9, f10, br⟩ := hI.free oob a hfa
    have haB := hB a (List.mem_cons_self _ _)
    rw [f2] at haB hnt1
    have ep := hI.uniq h _ _ f5 haB
    subst ep
    have ek : k' = k := gBlockSizes_inj k' k f6 hk f7.symm
    subst ek
    have hb := hI.blk _ haB
    simp only at hb
    obtain ⟨_, _, l1, _, l3, l4, l5, l6, _, _⟩ := hI.live_blk h f3
    have hpsz := hI.psz _ haB
    simp only at hpsz
    rw [hpsz, Nat.mod_eq_of_lt (by omega)] at hnt1
    rcases br with ⟨htop, _⟩ | ⟨_, hI', g1, g2⟩
    · exact absurd htop hnt1
    · have hlive' : ∀ a' ∈ as, freeOk a' (L.erase h) := by
        intro a' ha'
        obtain ⟨p0, h', hL', h0', e'⟩ := hlive a' (List.mem_cons_of_mem _ ha')
        refine ⟨p0, h', (List.mem_erase_of_ne ?_).2 hL', h0', e'⟩
        intro hc
        apply hna
        have hd := (headerOf_dataPtr h f4 (by unfold HEADER_SIZE; omega)).1
        rw [f1, ← hd, ← hc, e']
        exact ha'
      obtain ⟨L', hI2, q1, q2, q3⟩ := ih hI' hlive' hnd'
        (fun a' ha' => hB a' (List.mem_cons_of_mem _ ha')) hnt2
      refine ⟨L', ?_, ?_, ?_, ?_⟩
      · rw [setChain_twice, setChain_same] at hI2
        simp only [List.map_cons, List.reverse_cons, List.append_assoc, List.singleton_append,
          freeAll, f2]
        exact hI2
      · show (freeAll oob as (m_free oob a s)).gHeapStart = _
        rw [q1, g1]
      · show (freeAll oob as (m_free oob a s)).gHeapUsed + _ = _
        rw [List.length_cons, Nat.succ_mul]
        omega
      · show (freeAll oob as (m_free oob a s)).gHeapMax = _
        rw [q3, f10]

/-- Allocations of class `k` pop the blocks of free list `k` in the order of the
list and leave the frontier alone, as long as the list lasts. -/
theorem allocAll_pop (oob k : Nat) : ∀ (sizes l : List Nat) {s : State} {L : List Nat}
    {B : List (Nat × Nat)} {F : Nat → List Nat} (rest : List Nat), Inv cfg s L B F →
    F k = l ++ rest → sizes.length = l.length →
    (∀ n ∈ sizes, n + HEADER_SIZE + 0x1F < WORD ∧ footprint n ≤ 0x10000000
      ∧ selectBlock oob (footprint n) = k) →
    s.gHeapUsed + l.length * gBlockSizes.getD k 0 ≤ s.gHeapMax →
    s.gHeapUsed + l.length * gBlockSizes.getD k 0 < WORD →
    (allocAll cfg oob sizes s).1 = l.map dataPtr
      ∧ (allocAll cfg oob sizes s).2.gHeapStart = s.gHeapStart := by
  intro sizes
  induction sizes with
  | nil =>
    intro l s L B F rest _ _ hlen _ _ _
    have : l = [] := List.length_eq_zero.1 hlen.symm
    subst this
    exact ⟨rfl, rfl⟩
  | cons n ns ih =>
    intro l s L B F rest hI hF hlen hsz hcap hlt
    cases l with
    | nil => simp at hlen
    | cons h l' =>
      obtain ⟨w1, w2, w3⟩ := hsz n (List.mem_cons_self _ _)
      have hhF : h ∈ F k := by rw [hF]; exact List.mem_cons_self _ _
      obtain ⟨hk, hhB, _⟩ := hI.free_in k h hhF
      obtain ⟨cA1, cA2, _⟩ := allocSize_small oob n w2
      rw [w3] at cA2
      have hne : s.gHeapStart ≠ 0 := by
        intro h0
        have : frontier cfg s = m_get_heap_start cfg := by
          unfold frontier lazyInit
          simp [h0]
        have := (hI.empty_of_top this).1
        rw [this] at hhB
        simp at hhB
      have hl := lazyInit_of_ne cfg s hne
      have hch := hI.chain k
      rw [hF] at hch
      rw [List.length_cons, Nat.succ_mul] at hcap hlt
      have hok : allocOk cfg oob n s := by
        refine ⟨w1, w2, ?_, ?_⟩
        · rw [hl, cA2]; omega
        · intro _ hz
          rw [hl, w3] at hz
          have := hch.1
          rw [hz] at this
          exact absurd this.symm hch.2.1
      obtain ⟨_, _, o | o | o⟩ := hI.alloc oob n hok
      · obtain ⟨o1, _⟩ := o
        rw [hl, cA2] at o1
        omega
      · obtain ⟨_, h', t, s', hF', _, e, hI', g1, g2, g3, _⟩ := o
        rw [w3, hF] at hF'
        obtain ⟨e1, e2⟩ := List.cons.inj hF'
        subst e1
        rw [w3] at hI'
        rw [hl] at g1 g2 g3
        have hm := m_alloc_of_hdr cfg oob n s s' h e
        obtain ⟨r1, r2⟩ := ih l' rest hI' (by rw [setChain_same]; exact e2.symm)
          (by simpa using hlen)
          (fun n' hn' => hsz n' (List.mem_cons_of_mem _ hn'))
          (by rw [g2, g3, cA2]; omega) (by rw [g2, cA2]; omega)
        simp only [allocAll, hm, List.map_cons]
        exact ⟨by rw [r1], by rw [r2, g1]⟩
      · obtain ⟨_, hF', _⟩ := o
        rw [w3, hF] at hF'
        simp at hF'

end

/-! ## The claims of the specification -/

/-- C1 (used-counter accounting). After every sequence of `m_alloc`/`m_free` calls
from the initial state in which every free is applied to a pointer that an earlier
`m_alloc` returned and that has not been freed since, no request is oversized and no
32-bit arithmetic wraps, `gHeapUsed` equals the sum of the `psize` fields of the live
blocks, and `gHeapUsed = 0` holds if and only if no block is live. -/
theorem C1_used_accounting (cfg : Config) (m0 : Mem) (ops : List Op) (s : State)
    (live : List Nat) (hrun : run cfg m0 ops = some (s, live)) :
    s.gHeapUsed = (live.map (fun hdr => read32 s.mem (hdr + 8))).sum
      ∧ (s.gHeapUsed = 0 ↔ live = []) := by
  obtain ⟨B, F, hI⟩ := run_inv hrun
  refine ⟨hI.used, ?_⟩
  constructor
  · intro h0
    cases hl : live with
    | nil => rfl
    | cons a t =>
      have ha : a ∈ live := by rw [hl]; exact List.mem_cons_self _ _
      obtain ⟨p, _, _, _, _, _, _, _, h1, h2⟩ := hI.live_blk a ha
      omega
  · intro hl
    rw [hI.used, hl]
    rfl

/-- C1, witness: two allocations, the first one freed again; one block stays live
and `gHeapUsed` is its size. -/
theorem C1_used_accounting_witness :
    ∃ s live, run exCfg zeroMem [Op.alloc 100 0, Op.alloc 100 0, Op.free 0x10014 0]
        = some (s, live)
      ∧ live = [0x10100] ∧ s.gHeapUsed = 0x100
      ∧ s.gHeapUsed = (live.map (fun hdr => read32 s.mem (hdr + 8))).sum
      ∧ (s.gHeapUsed = 0 ↔ live = []) :=
  ⟨_, _, rfl, rfl, rfl,
    C1_used_accounting exCfg zeroMem [Op.alloc 100 0, Op.alloc 100 0, Op.free 0x10014 0] _ _ rfl⟩

/-- The footprint of a request is its size plus the header, rounded up to a
multiple of 32. -/
theorem footprint_round_up (n : Nat) (hw : n + HEADER_SIZE + 0x1F < WORD) :
    footprint n = (n + HEADER_SIZE + 31) / 32 * 32 := by
  rw [footprint_eq]
  unfold HEADER_SIZE WORD at *
  omega

/-- C2 (class rounding). For a request size `n` whose footprint `f = round_up(n +
sizeof(header), 32)` does not wrap and is at most `0x10000000`, a successful
`m_alloc(n)` writes a header whose `psize` is `gBlockSizes[k]` for the smallest index
`k` in `0..12` with `gBlockSizes[k] ≥ f` and whose `size` is `n`; in particular the
`psize` is `0x100` for `n = 200`, `0x400` for `n = 1000` and `0x4000` for `n = 5000`. -/
theorem C2_class_rounding (cfg : Config) (oob n : Nat) (s s' : State) (p : Nat)
    (hw : n + HEADER_SIZE + 0x1F < WORD) (hf : footprint n ≤ 0x10000000)
    (ha : m_alloc cfg oob n s = (p, s')) (hp : p ≠ 0) :
    footprint n = (n + HEADER_SIZE + 31) / 32 * 32
      ∧ (∃ k, k < 13 ∧ footprint n ≤ gBlockSizes.getD k 0
          ∧ (∀ j < k, gBlockSizes.getD j 0 < footprint n)
          ∧ read32 s'.mem (headerOf p + 8) = gBlockSizes.getD k 0)
      ∧ read32 s'.mem (headerOf p + 4) = n
      ∧ (n = 200 → read32 s'.mem (headerOf p + 8) = 0x100)
      ∧ (n = 1000 → read32 s'.mem (headerOf p + 8) = 0x400)
      ∧ (n = 5000 → read32 s'.mem (headerOf p + 8) = 0x4000) := by
  obtain ⟨h, h0, hh, _, _, ehdr⟩ := m_alloc_ne_zero cfg oob n s s' p ha hp
  obtain ⟨_, m2, m3, _⟩ := m_alloc_hdr_some cfg oob n s s' h hh
  obtain ⟨c1, c2, c3, c4⟩ := allocSize_small oob n hf
  have e8 : read32 s'.mem (headerOf p + 8) = gBlockSizes.getD (selectBlock oob (footprint n)) 0 := by
    rw [ehdr, read32_mod_addr, m3, c2]
  have e4 : read32 s'.mem (headerOf p + 4) = n := by
    rw [ehdr, read32_mod_addr, m2]
    exact Nat.mod_eq_of_lt (by omega)
  rw [c2] at c3
  have inst : ∀ n0 f0 k0 v0, n = n0 → footprint n0 = f0 → k0 < 13 →
      gBlockSizes.getD k0 0 = v0 → f0 ≤ v0 → (∀ j < k0, gBlockSizes.getD j 0 < f0) →
      read32 s'.mem (headerOf p + 8) = v0 := by
    intro n0 f0 k0 v0 hn hf0 hk0 hv0 hle hlt
    subst hn
    rw [e8]
    rw [hf0] at c3 c4
    have : selectBlock oob f0 = k0 := by
      rw [hf0] at c1
      rcases Nat.lt_trichotomy (selectBlock oob f0) k0 with h1 | h1 | h1
      · have := hlt _ h1
        omega
      · exact h1
      · have := c4 _ h1
        omega
    rw [hf0, this, hv0]
  refine ⟨footprint_round_up n hw, ⟨_, c1, c3, c4, e8⟩, e4, ?_, ?_, ?_⟩
  · intro hn
    exact inst 200 224 1 0x100 hn (by decide) (by decide) (by decide) (by decide) (by decide)
  · intro hn
    exact inst 1000 1024 2 0x400 hn (by decide) (by decide) (by decide) (by decide) (by decide)
  · intro hn
    exact inst 5000 5024 4 0x4000 hn (by decide) (by decide) (by decide) (by decide) (by decide)

/-- C2, witness: `m_alloc(200)`, `m_alloc(1000)` and `m_alloc(5000)` on a fresh 1 MiB
heap. -/
theorem C2_class_rounding_witness :
    (m_alloc exCfg 0 200 (initState zeroMem)).1 = 0x10014
      ∧ read32 (m_alloc exCfg 0 200 (initState zeroMem)).2.mem (headerOf 0x10014 + 8) = 0x100
      ∧ read32 (m_alloc exCfg 0 1000 (initState zeroMem)).2.mem (headerOf 0x10014 + 8) = 0x400
      ∧ read32 (m_alloc exCfg 0 5000 (initState zeroMem)).2.mem (headerOf 0x10014 + 8) = 0x4000 :=
  ⟨rfl,
    (C2_class_rounding exCfg 0 200 (initState zeroMem) _ 0x10014 (by decide) (by decide) rfl
      (by decide)).2.2.2.1 rfl,
    (C2_class_rounding exCfg 0 1000 (initState zeroMem) _ 0x10014 (by decide) (by decide) rfl
      (by decide)).2.2.2.2.1 rfl,
    (C2_class_rounding exCfg 0 5000 (initState zeroMem) _ 0x10014 (by decide) (by decide) rfl
      (by decide)).2.2.2.2.2 rfl⟩

/-- The out-of-memory path. In every state and for every request size, if the
capacity check `gHeapUsed + uAllocSize > gHeapMax` of line 108 holds (the 32-bit sum
as the code computes it, `uAllocSize` the class-rounded footprint, `gHeapMax` as the
lazy initialisation leaves it), `m_alloc` returns null and leaves `gHeapUsed`, every
free-list head and every byte of memory as they were; the frontier is what the lazy
initialisation makes of it (`heap_start` on the very first call, unchanged
otherwise), it is not advanced by `uAllocSize`. -/
theorem m_alloc_oom (cfg : Config) (oob size : Nat) (s : State)
    (hoom : (s.gHeapUsed + allocSize oob size) % WORD > (lazyInit cfg s).gHeapMax) :
    (m_alloc cfg oob size s).1 = 0
      ∧ (m_alloc cfg oob size s).2.gHeapUsed = s.gHeapUsed
      ∧ (m_alloc cfg oob size s).2.gFreeList = s.gFreeList
      ∧ (m_alloc cfg oob size s).2.mem = s.mem
      ∧ (m_alloc cfg oob size s).2.gHeapStart
          = (if s.gHeapStart = 0 then m_get_heap_start cfg else s.gHeapStart) := by
  obtain ⟨e1, e2, e3⟩ := lazyInit_mem cfg s
  have h : m_alloc cfg oob size s = (0, lazyInit cfg s) := by
    unfold m_alloc m_alloc_hdr
    simp only []
    rw [e3, if_pos hoom]
  rw [h]
  refine ⟨rfl, e3, e2, e1, ?_⟩
  show (lazyInit cfg s).gHeapStart = _
  unfold lazyInit
  split <;> rfl

/-- The out-of-memory path on a fresh 64 KiB heap at `0x10000`: the code computes
`gHeapMax = 0`, so `m_alloc(0x1000)` already fails; nothing but the lazy
initialisation happens. -/
theorem m_alloc_oom_example :
    ((initState zeroMem).gHeapUsed + allocSize 0 0x1000) % WORD
        > (lazyInit exCfg64k (initState zeroMem)).gHeapMax
      ∧ (m_alloc exCfg64k 0 0x1000 (initState zeroMem)).1 = 0
      ∧ (m_alloc exCfg64k 0 0x1000 (initState zeroMem)).2.gHeapUsed = 0
      ∧ (m_alloc exCfg64k 0 0x1000 (initState zeroMem)).2.gHeapStart = 0x10000 :=
  ⟨by decide,
    (m_alloc_oom exCfg64k 0 0x1000 (initState zeroMem) (by decide)).1,
    (m_alloc_oom exCfg64k 0 0x1000 (initState zeroMem) (by decide)).2.1,
    (m_alloc_oom exCfg64k 0 0x1000 (initState zeroMem) (by decide)).2.2.2.2⟩

/-- C6 (invalid free is a no-op). In every state, for a pointer that is null or
whose header word at `ptr - sizeof(header)` differs from `0xDEADBEEF`, `m_free`
returns the state unchanged: `gHeapUsed`, the frontier, all free-list heads and every
byte of memory. -/
theorem C6_invalid_free_noop (oob ptr : Nat) (s : State)
    (h : ptr = 0 ∨ read32 s.mem (headerOf ptr) ≠ MM_MAGIC) : m_free oob ptr s = s := by
  unfold m_free
  by_cases h0 : ptr = 0
  · rw [if_pos h0]
  · rw [if_neg h0]
    rcases h with h | h
    · exact absurd h h0
    · simp only []
      rw [if_pos h]

/-- C6, witness: a pointer into zero-filled memory has no magic in front of it,
freeing it changes nothing. -/
theorem C6_invalid_free_noop_witness :
    read32 (initState zeroMem).mem (headerOf 0x10014) ≠ MM_MAGIC
      ∧ m_free 0 0x10014 (initState zeroMem) = initState zeroMem
      ∧ m_free 0 0 (initState zeroMem) = initState zeroMem :=
  ⟨by decide, C6_invalid_free_noop 0 0x10014 (initState zeroMem) (Or.inr (by decide)),
    C6_invalid_free_noop 0 0 (initState zeroMem) (Or.inl rfl)⟩

theorem Tiles.congr_mod {base : Nat} : ∀ {B : List (Nat × Nat)} {top : Nat}, Tiles base top B →
    (∀ b ∈ B, b.2 % 32 = 0) → top % 32 = base % 32 ∧ ∀ b ∈ B, b.1 % 32 = base % 32 := by
  intro B
  induction B with
  | nil =>
    intro top ht _
    simp only [Tiles] at ht
    exact ⟨by rw [ht], by simp⟩
  | cons c rest ih =>
    intro top ht hal
    obtain ⟨h1, h2⟩ := ht
    obtain ⟨h3, h4⟩ := ih h2 (fun b hb => hal b (List.mem_cons_of_mem _ hb))
    have hc := hal c (List.mem_cons_self _ _)
    refine ⟨by omega, ?_⟩
    intro b hb
    rcases List.mem_cons.1 hb with e | hb
    · rw [e]; exact h3
    · exact h4 b hb

/-- In a reachable state the frontier and every block header are congruent to
`heap_start` modulo 32. -/
theorem Inv.align {cfg : Config} {s : State} {L : List Nat} {B : List (Nat × Nat)}
    {F : Nat → List Nat} (hI : Inv cfg s L B F) :
    frontier cfg s % 32 = m_get_heap_start cfg % 32
      ∧ ∀ b ∈ B, b.1 % 32 = m_get_heap_start cfg % 32 :=
  Tiles.congr_mod hI.tiles (fun b hb => (hI.blk b hb).2.2.1)

/-- C7, as stated, fails: the heap starts at a multiple of 32, the state is the
initial one, the request is `n = 100 > 0`, and the non-null pointer `m_alloc` returns is
`0x10014`, which is 20 modulo 32. -/
theorem C7_alignment_counterexample :
    exCfg.heap_start % 32 = 0
      ∧ run exCfg zeroMem [] = some (initState zeroMem, [])
      ∧ allocOk exCfg 0 100 (initState zeroMem)
      ∧ (m_alloc exCfg 0 100 (initState zeroMem)).1 = 0x10014
      ∧ (m_alloc exCfg 0 100 (initState zeroMem)).1 ≠ 0
      ∧ (m_alloc exCfg 0 100 (initState zeroMem)).1 % 32 = 20
      ∧ ¬ ((m_alloc exCfg 0 100 (initState zeroMem)).1 % 32 = 0) := by
  refine ⟨by decide, rfl, by decide, by decide, by decide, by decide, by decide⟩

/-- C7, amended. For a heap whose `heap_start` is a multiple of 32, in every state
reached by well-formed calls (frees of live pointers, no oversized request, no 32-bit
wrap), a non-null pointer returned by a well-formed `m_alloc(n)` is
`sizeof(header) = 20` modulo 32: the header in front of it is a multiple of 32, the
pointer itself is a multiple of 4 and never a multiple of 32. -/
theorem C7_alignment_amended (cfg : Config) (m0 : Mem) (ops : List Op) (s : State)
    (live : List Nat) (oob n : Nat) (hal : cfg.heap_start % 32 = 0)
    (hrun : run cfg m0 ops = some (s, live)) (hok : allocOk cfg oob n s)
    (hp : (m_alloc cfg oob n s).1 ≠ 0) :
    (m_alloc cfg oob n s).1 % 32 = 20 ∧ headerOf (m_alloc cfg oob n s).1 % 32 = 0
      ∧ (m_alloc cfg oob n s).1 % 4 = 0 ∧ (m_alloc cfg oob n s).1 % 32 ≠ 0 := by
  obtain ⟨B, F, hI⟩ := run_inv hrun
  obtain ⟨h, h0, hh, e1, e2, e3⟩ :=
    m_alloc_ne_zero cfg oob n s (m_alloc cfg oob n s).2 (m_alloc cfg oob n s).1 rfl hp
  have hbase : m_get_heap_start cfg % 32 = 0 := by
    unfold m_get_heap_start WORD
    omega
  obtain ⟨a1, a2⟩ := hI.align
  rw [hbase] at a1 a2
  have key : h % 32 = 0 ∧ h + 64 ≤ WORD := by
    obtain ⟨_, _, o | o | o⟩ := hI.alloc oob n hok
    · obtain ⟨_, e⟩ := o
      rw [e] at hh
      exact absurd hh (by simp)
    · obtain ⟨_, h', t, s2, hF, _, e, hinv, _⟩ := o
      rw [e] at hh
      simp only [Prod.mk.injEq, Option.some.injEq] at hh
      obtain ⟨hh1, _⟩ := hh
      subst hh1
      have hin := (hI.free_in _ h' (by rw [hF]; exact List.mem_cons_self _ _)).2.1
      have hb := hI.blk _ hin
      have := a2 _ hin
      simp only at this hb
      exact ⟨this, by omega⟩
    · obtain ⟨_, _, s2, e, hinv, _⟩ := o
      rw [e] at hh
      simp only [Prod.mk.injEq, Option.some.injEq] at hh
      obtain ⟨hh1, _⟩ := hh
      subst hh1
      have hb := hinv.blk _ (List.mem_cons_self _ _)
      simp only at hb
      exact ⟨a1, by omega⟩
  obtain ⟨k1, k2⟩ := key
  rw [e3, e2]
  unfold HEADER_SIZE WORD at *
  omega

/-- C7 amended, witness: the first allocation on the 1 MiB heap at `0x10000`. -/
theorem C7_alignment_amended_witness :
    exCfg.heap_start % 32 = 0 ∧ (m_alloc exCfg 0 100 (initState zeroMem)).1 = 0x10014
      ∧ (m_alloc exCfg 0 100 (initState zeroMem)).1 % 32 = 20
      ∧ headerOf (m_alloc exCfg 0 100 (initState zeroMem)).1 % 32 = 0 :=
  ⟨by decide, by decide,
    (C7_alignment_amended exCfg zeroMem [] (initState zeroMem) [] 0 100 (by decide) rfl
      (by decide) (by decide)).1,
    (C7_alignment_amended exCfg zeroMem [] (initState zeroMem) [] 0 100 (by decide) rfl
      (by decide) (by decide)).2.1⟩

/-- C8, the code at the failing inputs. (1) A 64 KiB heap at `0x100000`: the lazy
initialisation computes `gHeapMax = (heap_end - heap_start) - heap_start`, which wraps
to `0xFFF10000`, and the first call `m_alloc(0x20000)` returns `0x100014` although the
payload ends at `0x120014`, behind `heap_end = 0x110000`. (2) A 20 KiB heap at `0x800`,
where that subtraction does not wrap: after `a = m_alloc(3000)`, `m_alloc(1)`,
`m_free(a)` the call `m_alloc(16364)` passes the capacity check, which counts live
bytes only, and carves `0x1854`; the payload ends at `0x5840`, behind `heap_end =
0x5800`. -/
theorem C8_payload_outside_heap :
    ((m_alloc exCfgHigh 0 0x20000 (initState zeroMem)).1 = 0x100014
      ∧ (m_alloc exCfgHigh 0 0x20000 (initState zeroMem)).2.gHeapMax = 0xFFF10000
      ∧ m_get_heap_end exCfgHigh < (m_alloc exCfgHigh 0 0x20000 (initState zeroMem)).1 + 0x20000)
    ∧ (∃ s live, run exCfgLow zeroMem [Op.alloc 3000 0, Op.alloc 1 0, Op.free 0x814 0]
          = some (s, live)
        ∧ allocOk exCfgLow 0 16364 s
        ∧ s.gHeapMax = 0x4800
        ∧ (m_alloc exCfgLow 0 16364 s).1 = 0x1854
        ∧ m_get_heap_end exCfgLow < (m_alloc exCfgLow 0 16364 s).1 + 16364) := by
  refine ⟨⟨by decide, by decide, by decide⟩, _, _, rfl, by decide, by decide, by decide, by decide⟩

/-- The address computation of `m_alloca` for an alignment shift `k ≤ 30`. -/
theorem m_alloca_eq (cfg : Config) (oob n k : Nat) (s : State) (hk : k ≤ 30) :
    sub32 (2 ^ k) 1 = 2 ^ k - 1 ∧ (PTR_SIZE + sub32 (2 ^ k) 1) % WORD = 3 + 2 ^ k
      ∧ 1 ≤ 2 ^ k ∧ 2 ^ k ≤ 1073741824
      ∧ m_alloca cfg oob n k s =
        (if (m_alloc cfg oob ((n + (3 + 2 ^ k)) % WORD) s).1 = 0
          then (0, (m_alloc cfg oob ((n + (3 + 2 ^ k)) % WORD) s).2)
          else
            let x := ((m_alloc cfg oob ((n + (3 + 2 ^ k)) % WORD) s).1 + (3 + 2 ^ k)) % WORD
            (x - x % 2 ^ k,
              { (m_alloc cfg oob ((n + (3 + 2 ^ k)) % WORD) s).2 with
                mem := write32 (m_alloc cfg oob ((n + (3 + 2 ^ k)) % WORD) s).2.mem
                  (sub32 (x - x % 2 ^ k) PTR_SIZE)
                  (m_alloc cfg oob ((n + (3 + 2 ^ k)) % WORD) s).1 })) := by
  have hP1 : 1 ≤ 2 ^ k := Nat.one_le_two_pow
  have hP2 : 2 ^ k ≤ 2 ^ 30 := Nat.pow_le_pow_right (by omega) hk
  have e30 : (2:Nat) ^ 30 = 1073741824 := by norm_num
  rw [e30] at hP2
  have e1 : sub32 (2 ^ k) 1 = 2 ^ k - 1 := by
    unfold sub32 WORD
    omega
  have e2 : (PTR_SIZE + sub32 (2 ^ k) 1) % WORD = 3 + 2 ^ k := by
    rw [e1]
    unfold PTR_SIZE WORD
    omega
  refine ⟨e1, e2, hP1, hP2, ?_⟩
  unfold m_alloca
  simp only []
  rw [e2, e1]
  have emask : WORD - 1 - (2 ^ k - 1) = 2 ^ 32 - 2 ^ k := by
    unfold WORD
    omega
  rw [emask, land_mask _ k (by
    have : (2:Nat) ^ 32 = WORD := by unfold WORD; norm_num
    rw [this]
    exact Nat.mod_lt _ (by decide)) (by omega)]

theorem m_alloc_fst_lt (cfg : Config) (oob size : Nat) (s : State) :
    (m_alloc cfg oob size s).1 < WORD := by
  by_cases h : (m_alloc cfg oob size s).1 = 0
  · rw [h]; decide
  · obtain ⟨h', _, _, _, e, _⟩ :=
      m_alloc_ne_zero cfg oob size s (m_alloc cfg oob size s).2 (m_alloc cfg oob size s).1 rfl h
    rw [e]
    exact Nat.mod_lt _ (by decide)

/-- C9 at failing inputs: `m_alloca` adds the administrative bytes to the size, and
`m_alloc` the header and the rounding, in 32-bit arithmetic that wraps.
`m_alloca(0xFFFFFFFF, 0)` on the fresh 1 MiB heap asks `m_alloc` for
`(0xFFFFFFFF + 4) mod 2^32 = 3` bytes, gets the raw pointer `r = 0x10014` of a 64-byte
block (`r + 4 + 2^0 - 1` does not wrap) and returns `a = 0x10018`: the
`n = 0xFFFFFFFF` bytes at `a` lie neither inside the raw payload of 3 bytes nor inside
the block, which ends at `0x10040`. `m_alloca(0xFFFFF000, 12)` asks for 3 bytes as well,
gets the same block and returns `a = 0x11000`: even the back-pointer word at `0x10FFC`
lies behind the block, in memory that was never allocated. For
`m_alloca(0xFFFFEFF0, 12)` the request `0xFFFFFFF3` does not wrap, but its footprint
does (line 95): the block has 64 bytes again and `a = 0x11000` lies behind it. -/
theorem C9_aligned_address_overflow :
    ((m_alloc exCfg 0 ((0xFFFFFFFF + (PTR_SIZE + sub32 (2 ^ 0) 1) % WORD) % WORD)
        (initState zeroMem)).1 = 0x10014
      ∧ (0xFFFFFFFF + (PTR_SIZE + sub32 (2 ^ 0) 1) % WORD) % WORD = 3
      ∧ 0x10014 + PTR_SIZE + 2 ^ 0 - 1 < WORD
      ∧ (m_alloca exCfg 0 0xFFFFFFFF 0 (initState zeroMem)).1 = 0x10018
      ∧ read32 (m_alloca exCfg 0 0xFFFFFFFF 0 (initState zeroMem)).2.mem (0x10000 + 4) = 3
      ∧ read32 (m_alloca exCfg 0 0xFFFFFFFF 0 (initState zeroMem)).2.mem (0x10000 + 8) = 0x40
      ∧ 0x10014 + 3 < 0x10018 + 0xFFFFFFFF
      ∧ 0x10000 + 0x40 < 0x10018 + 0xFFFFFFFF)
    ∧ ((m_alloc exCfg 0 ((0xFFFFF000 + (PTR_SIZE + sub32 (2 ^ 12) 1) % WORD) % WORD)
        (initState zeroMem)).1 = 0x10014
      ∧ (0xFFFFF000 + (PTR_SIZE + sub32 (2 ^ 12) 1) % WORD) % WORD = 3
      ∧ 0x10014 + PTR_SIZE + 2 ^ 12 - 1 < WORD
      ∧ (m_alloca exCfg 0 0xFFFFF000 12 (initState zeroMem)).1 = 0x11000
      ∧ (m_alloca exCfg 0 0xFFFFF000 12 (initState zeroMem)).2.gHeapStart = 0x10040
      ∧ read32 (m_alloca exCfg 0 0xFFFFF000 12 (initState zeroMem)).2.mem (0x11000 - PTR_SIZE)
          = 0x10014
      ∧ 0x10040 ≤ 0x11000 - PTR_SIZE)
    ∧ (0xFFFFEFF0 + PTR_SIZE + 2 ^ 12 - 1 = 0xFFFFFFF3
      ∧ 0xFFFFEFF0 + PTR_SIZE + 2 ^ 12 - 1 < WORD
      ∧ footprint 0xFFFFFFF3 = 0x20
      ∧ (m_alloc exCfg 0 (0xFFFFEFF0 + PTR_SIZE + 2 ^ 12 - 1) (initState zeroMem)).1 = 0x10014
      ∧ 0x10014 + PTR_SIZE + 2 ^ 12 - 1 < WORD
      ∧ (m_alloca exCfg 0 0xFFFFEFF0 12 (initState zeroMem)).1 = 0x11000
      ∧ read32 (m_alloca exCfg 0 0xFFFFEFF0 12 (initState zeroMem)).2.mem (0x10000 + 8) = 0x40
      ∧ (m_alloca exCfg 0 0xFFFFEFF0 12 (initState zeroMem)).2.gHeapStart = 0x10040
      ∧ read32 (m_alloca exCfg 0 0xFFFFEFF0 12 (initState zeroMem)).2.mem (0x11000 - PTR_SIZE)
          = 0x10014
      ∧ 0x10040 ≤ 0x11000 - PTR_SIZE) := by
  refine ⟨⟨by decide, by decide, by decide, by decide, by decide, by decide, by decide,
    by decide⟩, ⟨by decide, by decide, by decide, by decide, by decide, by decide, by decide⟩,
    by decide, by decide, by decide, by decide, by decide, by decide, by decide, by decide,
    by decide, by decide⟩

/-- The address arithmetic of `m_alloca` where the request does not wrap. For every
`n` and every alignment shift `k` in `0..30` such that `n + sizeof(pointer) + 2^k - 1`
does not wrap: if `m_alloca(n, k)` obtains the non-null raw pointer `r` from
`m_alloc(n + sizeof(pointer) + 2^k - 1)` and `r + sizeof(pointer) + 2^k - 1` does not
wrap, the returned pointer `a` is a multiple of `2^k` with
`r + sizeof(pointer) ≤ a ≤ r + sizeof(pointer) + 2^k - 1`, the `n` bytes at `a` end at
or before `r` plus the requested size, and the word stored at `a - sizeof(pointer)` is
`r`. Whether the block that `m_alloc` handed out is that large is not part of the
statement. -/
theorem m_alloca_address (cfg : Config) (oob n k : Nat) (s : State)
    (hk : k ≤ 30) (hn : n + PTR_SIZE + 2 ^ k - 1 < WORD)
    (hr : (m_alloc cfg oob (n + PTR_SIZE + 2 ^ k - 1) s).1 ≠ 0)
    (hrw : (m_alloc cfg oob (n + PTR_SIZE + 2 ^ k - 1) s).1 + PTR_SIZE + 2 ^ k - 1 < WORD) :
    (m_alloca cfg oob n k s).1 % 2 ^ k = 0
      ∧ (m_alloc cfg oob (n + PTR_SIZE + 2 ^ k - 1) s).1 + PTR_SIZE ≤ (m_alloca cfg oob n k s).1
      ∧ (m_alloca cfg oob n k s).1
          ≤ (m_alloc cfg oob (n + PTR_SIZE + 2 ^ k - 1) s).1 + PTR_SIZE + 2 ^ k - 1
      ∧ (m_alloc cfg oob (n + PTR_SIZE + 2 ^ k - 1) s).1 ≤ (m_alloca cfg oob n k s).1 - PTR_SIZE
      ∧ (m_alloca cfg oob n k s).1 + n
          ≤ (m_alloc cfg oob (n + PTR_SIZE + 2 ^ k - 1) s).1 + (n + PTR_SIZE + 2 ^ k - 1)
      ∧ read32 (m_alloca cfg oob n k s).2.mem ((m_alloca cfg oob n k s).1 - PTR_SIZE)
          = (m_alloc cfg oob (n + PTR_SIZE + 2 ^ k - 1) s).1 := by
  obtain ⟨e1, e2, hP1, hP2, e⟩ := m_alloca_eq cfg oob n k s hk
  have ereq : (n + (3 + 2 ^ k)) % WORD = n + PTR_SIZE + 2 ^ k - 1 := by
    unfold PTR_SIZE WORD at *
    omega
  rw [e, ereq, if_neg hr]
  simp only []
  generalize hrdef : (m_alloc cfg oob (n + PTR_SIZE + 2 ^ k - 1) s).1 = r at *
  have hx : (r + (3 + 2 ^ k)) % WORD = r + 3 + 2 ^ k := by
    unfold PTR_SIZE WORD at *
    omega
  rw [hx]
  have hm : (r + 3 + 2 ^ k) % 2 ^ k < 2 ^ k := Nat.mod_lt _ (by omega)
  have hd : (r + 3 + 2 ^ k - (r + 3 + 2 ^ k) % 2 ^ k) % 2 ^ k = 0 := by
    have h1 := Nat.div_add_mod (r + 3 + 2 ^ k) (2 ^ k)
    have h2 : r + 3 + 2 ^ k - (r + 3 + 2 ^ k) % 2 ^ k = 2 ^ k * ((r + 3 + 2 ^ k) / 2 ^ k) := by
      omega
    rw [h2]
    exact Nat.mul_mod_right _ _
  generalize (r + 3 + 2 ^ k) % 2 ^ k = m at *
  have hsub : sub32 (r + 3 + 2 ^ k - m) PTR_SIZE = r + 3 + 2 ^ k - m - PTR_SIZE := by
    unfold sub32 PTR_SIZE WORD at *
    omega
  refine ⟨hd, ?_, ?_, ?_, ?_, ?_⟩
  · unfold PTR_SIZE; omega
  · unfold PTR_SIZE; omega
  · unfold PTR_SIZE; omega
  · unfold PTR_SIZE; omega
  · show read32 (write32 _ _ _) _ = _
    rw [hsub, read32_write32_same]
    apply Nat.mod_eq_of_lt
    unfold PTR_SIZE WORD at *
    omega

/-- The address arithmetic for `m_alloca(100, 8)`: on the fresh 1 MiB heap the call
returns the 256-byte-aligned pointer `0x10100`, the raw pointer `0x10014` is stored in
front of it. -/
theorem m_alloca_address_example :
    (m_alloc exCfg 0 (100 + PTR_SIZE + 2 ^ 8 - 1) (initState zeroMem)).1 = 0x10014
      ∧ (m_alloca exCfg 0 100 8 (initState zeroMem)).1 = 0x10100
      ∧ (m_alloca exCfg 0 100 8 (initState zeroMem)).1 % 2 ^ 8 = 0
      ∧ read32 (m_alloca exCfg 0 100 8 (initState zeroMem)).2.mem
          ((m_alloca exCfg 0 100 8 (initState zeroMem)).1 - PTR_SIZE)
          = (m_alloc exCfg 0 (100 + PTR_SIZE + 2 ^ 8 - 1) (initState zeroMem)).1 :=
  ⟨by decide, by decide,
    (m_alloca_address exCfg 0 100 8 (initState zeroMem) (by decide) (by decide)
      (by decide) (by decide)).1,
    (m_alloca_address exCfg 0 100 8 (initState zeroMem) (by decide) (by decide)
      (by decide) (by decide)).2.2.2.2.2⟩

/-- The rewind path of `m_free`. -/
theorem m_free_rewind (oob ptr : Nat) (s : State) (hp : ptr ≠ 0)
    (hmagic : read32 s.mem (headerOf ptr) = MM_MAGIC)
    (htop : (headerOf ptr + read32 s.mem (headerOf ptr + 8)) % WORD = s.gHeapStart) :
    m_free oob ptr s =
      { s with
        mem := write32 s.mem (headerOf ptr) 0
        gHeapStart := headerOf ptr
        gHeapUsed := sub32 s.gHeapUsed (read32 (write32 s.mem (headerOf ptr) 0) (headerOf ptr + 8)) } := by
  unfold m_free
  rw [if_neg hp]
  simp only []
  rw [if_neg (not_not.mpr hmagic), if_pos htop]

/-- C10 (aligned round trip). In every state whose `gHeapUsed` is a 32-bit value (so
in every reachable state), for every `n` and every alignment shift `k` in `0..30`: if
`m_alloca(n, k)` returns a non-null pointer `a`, then `m_freea(a)` called immediately
afterwards reads back exactly the raw pointer `r` that `m_alloc` returned and frees it,
and when the block of `r` is topmost at that moment, `gHeapUsed` after `m_freea` is
what it was before `m_alloca`. -/
theorem C10_aligned_round_trip (cfg : Config) (oob n k : Nat) (s : State) (hk : k ≤ 30)
    (hu : s.gHeapUsed < WORD) (ha : (m_alloca cfg oob n k s).1 ≠ 0) :
    read32 (m_alloca cfg oob n k s).2.mem (sub32 (m_alloca cfg oob n k s).1 PTR_SIZE)
        = (m_alloc cfg oob ((n + PTR_SIZE + 2 ^ k - 1) % WORD) s).1
      ∧ m_freea oob (m_alloca cfg oob n k s).1 (m_alloca cfg oob n k s).2
        = m_free oob (m_alloc cfg oob ((n + PTR_SIZE + 2 ^ k - 1) % WORD) s).1
            (m_alloca cfg oob n k s).2
      ∧ ((headerOf (m_alloc cfg oob ((n + PTR_SIZE + 2 ^ k - 1) % WORD) s).1
            + read32 (m_alloca cfg oob n k s).2.mem
                (headerOf (m_alloc cfg oob ((n + PTR_SIZE + 2 ^ k - 1) % WORD) s).1 + 8)) % WORD
          = (m_alloca cfg oob n k s).2.gHeapStart →
        (m_freea oob (m_alloca cfg oob n k s).1 (m_alloca cfg oob n k s).2).gHeapUsed
          = s.gHeapUsed) := by
  obtain ⟨e1, e2, hP1, hP2, e⟩ := m_alloca_eq cfg oob n k s hk
  have ereq : (n + (3 + 2 ^ k)) % WORD = (n + PTR_SIZE + 2 ^ k - 1) % WORD := by
    have : n + (3 + 2 ^ k) = n + PTR_SIZE + 2 ^ k - 1 := by
      unfold PTR_SIZE
      omega
    rw [this]
  rw [ereq] at e
  generalize hreq : (n + PTR_SIZE + 2 ^ k - 1) % WORD = req at *
  have hr0 : (m_alloc cfg oob req s).1 ≠ 0 := by
    intro hc
    rw [e, if_pos hc] at ha
    exact ha rfl
  rw [if_neg hr0] at e
  obtain ⟨h, h0, hh, _, er, ehdr⟩ :=
    m_alloc_ne_zero cfg oob req s (m_alloc cfg oob req s).2 (m_alloc cfg oob req s).1 rfl hr0
  obtain ⟨m1, _, m3, m4, _⟩ := m_alloc_hdr_some cfg oob req s _ h hh
  have hA := allocSize_lt oob req
  generalize hAdef : allocSize oob req = A at *
  generalize hs1 : (m_alloc cfg oob req s).2 = s1 at *
  generalize hrdef : (m_alloc cfg oob req s).1 = r at *
  simp only [] at e
  generalize hx : (r + (3 + 2 ^ k)) % WORD = x at *
  have hm : x % 2 ^ k < 2 ^ k := Nat.mod_lt _ (by omega)
  have hmx : x % 2 ^ k ≤ x := Nat.mod_le _ _
  generalize hmdef : x % 2 ^ k = m at *
  generalize hPdef : 2 ^ k = P at *
  rw [e]
  simp only []
  -- the store of the back pointer does not touch the header
  have hfrm : ∀ c, c ≤ 8 → read32 (write32 s1.mem (sub32 (x - m) PTR_SIZE) r) (h % WORD + c)
      = read32 s1.mem (h + c) := by
    intro c hc
    rw [read32_write32_frame, read32_mod_addr]
    intro i hi j hj
    unfold sub32 PTR_SIZE HEADER_SIZE WORD at *
    omega
  have hback : read32 (write32 s1.mem (sub32 (x - m) PTR_SIZE) r) (sub32 (x - m) PTR_SIZE) = r := by
    rw [read32_write32_same]
    apply Nat.mod_eq_of_lt
    rw [er]
    exact Nat.mod_lt _ (by decide)
  have hfreea : m_freea oob (x - m)
      { s1 with mem := write32 s1.mem (sub32 (x - m) PTR_SIZE) r }
      = m_free oob r { s1 with mem := write32 s1.mem (sub32 (x - m) PTR_SIZE) r } := by
    unfold m_freea
    show m_free oob (read32 (write32 s1.mem (sub32 (x - m) PTR_SIZE) r) (sub32 (x - m) PTR_SIZE)) _
      = _
    rw [hback]
  refine ⟨hback, hfreea, ?_⟩
  intro htop
  rw [hfreea]
  have hmagic := hfrm 0 (by omega)
  simp only [Nat.add_zero] at hmagic
  have hps := hfrm 8 (by omega)
  rw [m3] at hps
  rw [m1] at hmagic
  rw [ehdr] at htop
  have hfree := m_free_rewind oob r { s1 with mem := write32 s1.mem (sub32 (x - m) PTR_SIZE) r }
    hr0 (by rw [ehdr]; exact hmagic) (by rw [ehdr]; exact htop)
  rw [hfree, ehdr]
  show sub32 s1.gHeapUsed (read32 (write32 (write32 s1.mem (sub32 (x - m) PTR_SIZE) r) (h % WORD) 0)
    (h % WORD + 8)) = s.gHeapUsed
  rw [read32_write32_frame _ _ _ _ (by
    intro i hi j hj
    unfold WORD
    omega), hps, m4]
  unfold sub32 WORD at *
  omega

/-- C10, witness: `m_alloca(100, 8)` on the fresh 1 MiB heap, at once released by
`m_freea`; the block is topmost, `gHeapUsed` is back at 0. -/
theorem C10_aligned_round_trip_witness :
    (m_alloca exCfg 0 100 8 (initState zeroMem)).1 = 0x10100
      ∧ (m_alloc exCfg 0 ((100 + PTR_SIZE + 2 ^ 8 - 1) % WORD) (initState zeroMem)).1 = 0x10014
      ∧ read32 (m_alloca exCfg 0 100 8 (initState zeroMem)).2.mem
          (sub32 (m_alloca exCfg 0 100 8 (initState zeroMem)).1 PTR_SIZE) = 0x10014
      ∧ (m_freea 0 (m_alloca exCfg 0 100 8 (initState zeroMem)).1
          (m_alloca exCfg 0 100 8 (initState zeroMem)).2).gHeapUsed = 0 :=
  ⟨by decide, by decide,
    (C10_aligned_round_trip exCfg 0 100 8 (initState zeroMem) (by decide) (by decide)
      (by decide)).1.trans (by decide),
    (C10_aligned_round_trip exCfg 0 100 8 (initState zeroMem) (by decide) (by decide)
      (by decide)).2.2 (by decide)⟩

/-- Free-list reuse is last-in-first-out per class where no 32-bit arithmetic
wraps. In every state reached by well-formed calls (frees of live pointers, no
oversized request, no 32-bit wrap): if
the distinct live pointers `a1, ..., am` all have `psize = gBlockSizes[k]` and none of
them is topmost at the moment it is freed, then after `m_free(a1), ..., m_free(am)` the
next `m` calls `m_alloc(n)`, for any sizes `n` whose footprint selects class `k`, return
`am, ..., a1` in that order, and neither the frees nor the allocations move the
frontier. -/
theorem lifo_per_class (cfg : Config) (m0 : Mem) (ops : List Op) (s : State)
    (live : List Nat) (oob k : Nat) (ptrs sizes : List Nat)
    (hrun : run cfg m0 ops = some (s, live)) (hk : k < 13)
    (hlive : ∀ a ∈ ptrs, freeOk a live) (hnd : ptrs.Nodup)
    (hcls : ∀ a ∈ ptrs, read32 s.mem (headerOf a + 8) = gBlockSizes.getD k 0)
    (hnt : notTopWhenFreed oob ptrs s) (hlen : sizes.length = ptrs.length)
    (hsz : ∀ n ∈ sizes, n + HEADER_SIZE + 0x1F < WORD ∧ footprint n ≤ 0x10000000
      ∧ selectBlock oob (footprint n) = k) :
    (allocAll cfg oob sizes (freeAll oob ptrs s)).1 = ptrs.reverse
      ∧ (freeAll oob ptrs s).gHeapStart = s.gHeapStart
      ∧ (allocAll cfg oob sizes (freeAll oob ptrs s)).2.gHeapStart = s.gHeapStart := by
  obtain ⟨B, F, hI⟩ := run_inv hrun
  -- every pointer of the list is the data pointer of a block of class `k`
  have hptr : ∀ a ∈ ptrs, (headerOf a, gBlockSizes.getD k 0) ∈ B ∧ dataPtr (headerOf a) = a := by
    intro a ha
    obtain ⟨_, h, hL, h0, e⟩ := hlive a ha
    obtain ⟨p, hpB, l1, _, l3, l4, _, _, l7, _⟩ := hI.live_blk h hL
    obtain ⟨d1, d2, d3⟩ := headerOf_dataPtr h h0 (by unfold HEADER_SIZE; omega)
    rw [e] at d3
    have := hcls a ha
    rw [d3, l1] at this
    rw [d3, ← this]
    exact ⟨hpB, e⟩
  obtain ⟨L', hI', q1, q2, q3⟩ := freeAll_push oob k hk ptrs hI hlive hnd
    (fun a ha => (hptr a ha).1) hnt
  have hu := hI.used_le
  have hu2 := hI.used_lt
  have hlen' : sizes.length = (ptrs.map headerOf).reverse.length := by
    rw [List.length_reverse, List.length_map]
    exact hlen
  have hlen2 : (ptrs.map headerOf).reverse.length = ptrs.length := by
    rw [List.length_reverse, List.length_map]
  have hc1 : (freeAll oob ptrs s).gHeapUsed
      + (ptrs.map headerOf).reverse.length * gBlockSizes.getD k 0
      ≤ (freeAll oob ptrs s).gHeapMax := by
    rw [hlen2, q3, q2]
    exact hu
  have hc2 : (freeAll oob ptrs s).gHeapUsed
      + (ptrs.map headerOf).reverse.length * gBlockSizes.getD k 0 < WORD := by
    rw [hlen2, q2]
    exact hu2
  obtain ⟨r1, r2⟩ := allocAll_pop oob k sizes (ptrs.map headerOf).reverse (F k) hI'
    (setChain_same _ _ _) hlen' hsz hc1 hc2
  refine ⟨?_, q1, by rw [r2, q1]⟩
  have hid : List.map (dataPtr ∘ headerOf) ptrs = List.map id ptrs := by
    apply List.map_congr_left
    intro a ha
    rw [Function.comp_apply, id_eq]
    exact (hptr a ha).2
  rw [r1, List.map_reverse, List.map_map, hid, List.map_id]

/-- Last-in-first-out reuse on the 1 MiB heap: after three allocations of class 1 on the 1 MiB heap the first
two blocks are freed and two allocations of the class return them in reverse order;
and the scenario of the specification, `a = m_alloc(100)`, `b = m_alloc(100)`,
`m_free(a)`, `c = m_alloc(100)`, gives `c = a`. -/
theorem lifo_per_class_example :
    (∃ s live, run exCfg zeroMem [Op.alloc 100 0, Op.alloc 100 0, Op.alloc 100 0] = some (s, live)
      ∧ (allocAll exCfg 0 [100, 60] (freeAll 0 [0x10014, 0x10114] s)).1 = [0x10114, 0x10014]
      ∧ (allocAll exCfg 0 [100, 60] (freeAll 0 [0x10014, 0x10114] s)).2.gHeapStart = s.gHeapStart)
    ∧ (∃ s live, run exCfg zeroMem [Op.alloc 100 0, Op.alloc 100 0] = some (s, live)
      ∧ (m_alloc exCfg 0 100 (initState zeroMem)).1 = 0x10014
      ∧ (allocAll exCfg 0 [100] (freeAll 0 [0x10014] s)).1 = [0x10014]) :=
  ⟨⟨_, _, rfl,
      (lifo_per_class exCfg zeroMem [Op.alloc 100 0, Op.alloc 100 0, Op.alloc 100 0] _ _ 0 1
        [0x10014, 0x10114] [100, 60] rfl (by decide) (by decide) (by decide) (by decide)
        ⟨by decide, by decide, trivial⟩ rfl (by decide)).1,
      (lifo_per_class exCfg zeroMem [Op.alloc 100 0, Op.alloc 100 0, Op.alloc 100 0] _ _ 0 1
        [0x10014, 0x10114] [100, 60] rfl (by decide) (by decide) (by decide) (by decide)
        ⟨by decide, by decide, trivial⟩ rfl (by decide)).2.2⟩,
    ⟨_, _, rfl, by decide,
      (lifo_per_class exCfg zeroMem [Op.alloc 100 0, Op.alloc 100 0] _ _ 0 1
        [0x10014] [100] rfl (by decide) (by decide) (by decide) (by decide)
        ⟨by decide, trivial⟩ rfl (by decide)).1⟩⟩

/-- A call of `m_free` on a header without the magic word leaves the state as it is. -/
theorem m_free_of_bad_magic (oob ptr : Nat) (s : State)
    (h : read32 s.mem (headerOf ptr) ≠ MM_MAGIC) : m_free oob ptr s = s := by
  unfold m_free
  by_cases h0 : ptr = 0
  · rw [if_pos h0]
  · rw [if_neg h0]
    simp only []
    rw [if_pos h]

/-- C13. In every state, hence in every state reached by well-formed calls, and for
every pointer `ptr`: if `m_free(ptr)` takes the rewind path (`ptr` is not null, its
header holds the magic word, as that of a live block does, and the block is topmost),
then the header word read by a second `m_free(ptr)` is 0 and the second call returns
the state of the first unchanged, so that `gHeapUsed`, the frontier, the free-list
heads and the memory are those after the first call. -/
theorem C13_double_free_after_rewind (oob1 oob2 ptr : Nat) (s : State) (hp : ptr ≠ 0)
    (hmagic : read32 s.mem (headerOf ptr) = MM_MAGIC)
    (htop : (headerOf ptr + read32 s.mem (headerOf ptr + 8)) % WORD = s.gHeapStart) :
    (m_free oob1 ptr s).gHeapStart = headerOf ptr
      ∧ read32 (m_free oob1 ptr s).mem (headerOf ptr) = 0
      ∧ m_free oob2 ptr (m_free oob1 ptr s) = m_free oob1 ptr s := by
  have hfree := m_free_rewind oob1 ptr s hp hmagic htop
  have hz : read32 (m_free oob1 ptr s).mem (headerOf ptr) = 0 := by
    rw [hfree]
    show read32 (write32 s.mem (headerOf ptr) 0) (headerOf ptr) = 0
    rw [read32_write32_same]
    rfl
  refine ⟨by rw [hfree], hz, ?_⟩
  apply m_free_of_bad_magic
  rw [hz]
  decide

/-- C13 on the 1 MiB heap: `p = m_alloc(100)`, `m_free(p)`, `m_free(p)`. -/
theorem C13_double_free_after_rewind_witness :
    ∃ s live, run exCfg zeroMem [Op.alloc 100 0] = some (s, live)
      ∧ (m_alloc exCfg 0 100 (initState zeroMem)).1 = 0x10014
      ∧ freeOk 0x10014 live
      ∧ (m_free 0 0x10014 s).gHeapStart = headerOf 0x10014
      ∧ read32 (m_free 0 0x10014 s).mem (headerOf 0x10014) = 0
      ∧ m_free 0 0x10014 (m_free 0 0x10014 s) = m_free 0 0x10014 s :=
  ⟨_, _, rfl, by decide, by decide,
    C13_double_free_after_rewind 0 0 0x10014 _ (by decide) (by decide) (by decide)⟩

/-- C12, as stated, fails. On the fresh 1 MiB heap at `0x10000` the call `m_alloc(100)`
returns `0x10014`, not `0x10020`, because the header has 20 bytes; the footprint
`(100 + 20 + 31) & ~31 = 128` exceeds the smallest class `0x40`, so `psize` and
`gHeapUsed` are `0x100`, not `0x40`. -/
theorem C12_scenario_S1_counterexample :
    exCfg.heap_start = 0x10000 ∧ exCfg.heap_end = 0x110000
      ∧ (m_alloc exCfg 0 100 (initState zeroMem)).1 = 0x10014
      ∧ (m_alloc exCfg 0 100 (initState zeroMem)).1 ≠ 0x10020
      ∧ footprint 100 = 128
      ∧ read32 (m_alloc exCfg 0 100 (initState zeroMem)).2.mem
          (headerOf (m_alloc exCfg 0 100 (initState zeroMem)).1 + 8) = 0x100
      ∧ read32 (m_alloc exCfg 0 100 (initState zeroMem)).2.mem
          (headerOf (m_alloc exCfg 0 100 (initState zeroMem)).1 + 8) ≠ 0x40
      ∧ (m_alloc exCfg 0 100 (initState zeroMem)).2.gHeapUsed = 0x100
      ∧ (m_alloc exCfg 0 100 (initState zeroMem)).2.gHeapUsed ≠ 0x40 :=
  ⟨rfl, rfl, by decide, by decide, by decide, by decide, by decide, by decide, by decide⟩

/-- C12, amended. On the fresh 1 MiB heap at `0x10000`, whatever the memory holds,
`p = m_alloc(100)` returns `p = 0x10014`, the `psize` of the block is `0x100` and
`gHeapUsed` is `0x100`; the following `m_free(p)` rewinds the frontier to `0x10000` and
leaves `gHeapUsed = 0`. -/
theorem C12_scenario_S1_amended (m0 : Mem) (oob1 oob2 : Nat) :
    (m_alloc exCfg oob1 100 (initState m0)).1 = 0x10014
      ∧ read32 (m_alloc exCfg oob1 100 (initState m0)).2.mem (0x10000 + 8) = 0x100
      ∧ (m_alloc exCfg oob1 100 (initState m0)).2.gHeapUsed = 0x100
      ∧ (m_alloc exCfg oob1 100 (initState m0)).2.gHeapStart = 0x10100
      ∧ (m_free oob2 0x10014 (m_alloc exCfg oob1 100 (initState m0)).2).gHeapStart = 0x10000
      ∧ (m_free oob2 0x10014 (m_alloc exCfg oob1 100 (initState m0)).2).gHeapUsed = 0 := by
  have hA : allocSize oob1 100 = 0x100 := (allocSize_indep oob1 0 100 (by decide)).trans (by decide)
  have hl1 : (lazyInit exCfg (initState m0)).gHeapStart = 0x10000 := rfl
  have hl2 : (lazyInit exCfg (initState m0)).gHeapUsed = 0 := rfl
  have hl3 : (lazyInit exCfg (initState m0)).gHeapMax = 0xF0000 := rfl
  have hok : allocOk exCfg oob1 100 (initState m0) := by
    refine ⟨by decide, by decide, ?_, ?_⟩
    · rw [hA, hl2]; decide
    · intro _ _
      rw [hA, hl1]; decide
  obtain ⟨_, _, hcase⟩ := (inv_init exCfg m0).alloc oob1 100 hok
  rw [hA, hl1, hl2, hl3] at hcase
  rcases hcase with ⟨hc, _⟩ | ⟨_, a, t, s', e, _⟩ | ⟨_, _, s', e, hI1, g1, g2, _⟩
  · exact absurd hc (by decide)
  · simp at e
  · obtain ⟨_, _, m3, _, _⟩ := m_alloc_hdr_some exCfg oob1 100 _ _ _ e
    rw [hA] at m3
    rw [m_alloc_of_hdr exCfg oob1 100 _ _ _ e]
    have hd : dataPtr 0x10000 = 0x10014 := by decide
    have hfok : freeOk 0x10014 (0x10000 :: []) := by decide
    obtain ⟨h, p, k, f1, f2, f3, f4, f5, _, _, _, f9, _, br⟩ := hI1.free oob2 0x10014 hfok
    have hh : h = 0x10000 := by
      unfold HEADER_SIZE at f1
      omega
    subst hh
    have hp : p = 0x100 := by
      simp only [List.mem_cons, Prod.mk.injEq, List.not_mem_nil, or_false] at f5
      exact f5.2
    subst hp
    refine ⟨hd, m3, g2, g1, ?_, ?_⟩
    · rcases br with ⟨_, _, _, _, g, _⟩ | ⟨hc, _⟩
      · exact g
      · exact absurd g1.symm hc
    · show (m_free oob2 0x10014 s').gHeapUsed = 0
      rw [f9, g2]

/-- C18. On the 1 MiB heap `a = m_alloc(100)` and `b = m_alloc(100)` return `0x10014`
and `0x10114`, and `m_free(a)` pushes the block of `a` onto list 1. A second
`m_free(a)` finds the magic word, the block not topmost, and pushes it again: the head
of list 1 is the header of `a`, whose `prev` link is that header itself, and
`gHeapUsed` has gone from `0x200` to `0`. The next two `m_alloc(100)` both return
`a`. -/
theorem C18_double_free_corrupts_chain :
    ∃ s live,
      run exCfg zeroMem [Op.alloc 100 0, Op.alloc 100 0, Op.free 0x10014 0] = some (s, live)
      ∧ (m_alloc exCfg 0 100 (initState zeroMem)).1 = 0x10014
      ∧ (m_alloc exCfg 0 100 (m_alloc exCfg 0 100 (initState zeroMem)).2).1 = 0x10114
      ∧ (m_alloc exCfg 0 100 (m_alloc exCfg 0 100 (initState zeroMem)).2).2.gHeapUsed = 0x200
      ∧ s.gHeapUsed = 0x100
      ∧ read32 s.mem (headerOf 0x10014) = MM_MAGIC
      ∧ (headerOf 0x10014 + read32 s.mem (headerOf 0x10014 + 8)) % WORD ≠ s.gHeapStart
      ∧ freeBlock 0 (read32 s.mem (headerOf 0x10014 + 8)) = 1
      ∧ (m_free 0 0x10014 s).gFreeList 1 = headerOf 0x10014
      ∧ read32 (m_free 0 0x10014 s).mem (headerOf 0x10014 + 12) = headerOf 0x10014
      ∧ (m_free 0 0x10014 s).gHeapUsed = 0
      ∧ (m_alloc exCfg 0 100 (m_free 0 0x10014 s)).1 = 0x10014
      ∧ (m_alloc exCfg 0 100 (m_alloc exCfg 0 100 (m_free 0 0x10014 s)).2).1 = 0x10014 :=
  ⟨_, _, rfl, by decide, by decide, by decide, by decide, by decide, by decide, by decide,
    by decide, by decide, by decide, by decide, by decide⟩

/-- The lazy initialisation of lines 80-91 on a state that is not initialised: the
frontier becomes `heap_start`, and the capacity is the heap size less `heap_start`
once more, which differs from the heap size whenever `heap_start` is not 0. -/
theorem lazyInit_gHeapMax (cfg : Config) (s : State) (hs : s.gHeapStart = 0)
    (h0 : cfg.heap_start ≠ 0) (hle : cfg.heap_start ≤ cfg.heap_end) (hlt : cfg.heap_end < WORD) :
    (lazyInit cfg s).gHeapStart = cfg.heap_start
      ∧ (lazyInit cfg s).gHeapMax
          = (cfg.heap_end - cfg.heap_start + WORD - cfg.heap_start) % WORD
      ∧ (lazyInit cfg s).gHeapMax ≠ cfg.heap_end - cfg.heap_start := by
  unfold lazyInit
  rw [if_pos hs]
  simp only []
  unfold m_get_heap_start m_get_heap_end sub32 WORD at *
  omega

/-- C19 at a failing input. On the fresh 1 MiB heap at `0x10000` the first
`m_alloc` initialises the frontier to `heap_start` (the block is carved at `0x10000`),
but leaves `gHeapMax = 0xF0000`, which is `heap_end - heap_start - heap_start`, where
the claim has `heap_end - heap_start = 0x100000`; on the 64 KiB heap at `0x100000` the
subtraction wraps and leaves `0xFFF10000`. -/
theorem C19_lazy_init_capacity :
    exCfg.heap_start ≠ 0 ∧ exCfg.heap_start ≤ exCfg.heap_end
      ∧ (lazyInit exCfg (initState zeroMem)).gHeapStart = exCfg.heap_start
      ∧ (m_alloc exCfg 0 100 (initState zeroMem)).1 = exCfg.heap_start + HEADER_SIZE
      ∧ exCfg.heap_end - exCfg.heap_start = 0x100000
      ∧ (m_alloc exCfg 0 100 (initState zeroMem)).2.gHeapMax = 0xF0000
      ∧ exCfgHigh.heap_start ≠ 0 ∧ exCfgHigh.heap_start ≤ exCfgHigh.heap_end
      ∧ exCfgHigh.heap_end - exCfgHigh.heap_start = 0x10000
      ∧ (m_alloc exCfgHigh 0 100 (initState zeroMem)).2.gHeapMax = 0xFFF10000 :=
  ⟨by decide, by decide, by decide, by decide, by decide, by decide, by decide, by decide,
    by decide, by decide⟩

/-- The loop of the class scan reads the table at every index from its start up to
the index it stops at. -/
theorem scanReads_spec (oob sz : Nat) :
    ∀ fuel u, u ≤ MM_BLOCKS - 1 → MM_BLOCKS - u ≤ fuel →
      scanReads oob sz fuel u = List.range' u (scanBlock oob sz fuel u + 1 - u) := by
  intro fuel
  induction fuel with
  | zero =>
    intro u hu hf
    unfold MM_BLOCKS at *
    omega
  | succ n ih =>
    intro u hu hf
    unfold scanReads scanBlock
    by_cases hc : sz > blockSizeAt oob u ∧ u < MM_BLOCKS - 1
    · rw [if_pos hc, if_pos hc]
      have hu1 : u + 1 ≤ MM_BLOCKS - 1 := by
        have := hc.2
        omega
      have hf1 : MM_BLOCKS - (u + 1) ≤ n := by omega
      have hb := (scanBlock_spec oob sz n (u + 1) hu1 (by omega)).1
      rw [ih (u + 1) hu1 hf1]
      have e : scanBlock oob sz n (u + 1) + 1 - u
          = (scanBlock oob sz n (u + 1) + 1 - (u + 1)) + 1 := by omega
      rw [e, List.range'_succ]
    · rw [if_neg hc, if_neg hc]
      have e : u + 1 - u = 1 := by omega
      rw [e]
      rfl

/-- For every size above the largest class the class selection of `m_alloc` and of
`m_free` reads the table at index 13, one past its 13 entries, and ends with bucket 13;
`m_alloc` then takes the larger of the footprint and the word read there as the block
size. -/
theorem selectBlock_oversize (oob f : Nat) (hf : 0x10000000 < f) :
    selectBlock oob f = MM_BLOCKS - 1
      ∧ freeBlock oob f = MM_BLOCKS - 1
      ∧ selectReads oob f = List.range' 0 MM_BLOCKS ++ [MM_BLOCKS - 1]
      ∧ gBlockSizes.length = MM_BLOCKS - 1 := by
  obtain ⟨_, h2, _, h4⟩ := scanBlock_spec oob f MM_BLOCKS 0 (by decide) (by decide)
  have hsel : selectBlock oob f = MM_BLOCKS - 1 := by
    unfold selectBlock
    by_contra hne
    have hlt : scanBlock oob f MM_BLOCKS 0 < MM_BLOCKS - 1 := by omega
    have hlt13 : scanBlock oob f MM_BLOCKS 0 < 13 := hlt
    apply h4
    refine ⟨?_, hlt⟩
    rw [blockSizeAt_lt oob _ hlt13]
    have := (gBlockSizes_bounds _ hlt13).2.1
    omega
  refine ⟨hsel, ?_, ?_, rfl⟩
  · unfold freeBlock
    simp only []
    rw [hsel]
    split <;> rfl
  · unfold selectReads
    rw [scanReads_spec oob f MM_BLOCKS 0 (by decide) (by decide), hsel]
    have hs := hsel
    unfold selectBlock at hs
    rw [hs]
    rfl

/-- C20 at failing inputs. The request `m_alloc(0x10000000)` has the footprint
`0x10000020`, above the largest class: the scan compares with the table entries
`0..12` and then twice with `gBlockSizes[13]`, which is not an entry of the 13-entry
table. Bucket 13 is selected; where the word behind the table is `0x20000000` the
block size becomes that word instead of the footprint, where it is 0 the footprint is
kept. In `m_free` a `psize` of `0x20000000` leads to the same reads. -/
theorem C20_oversize_scan_reads :
    footprint 0x10000000 = 0x10000020
      ∧ selectReads 0 (footprint 0x10000000) = [0, 1, 2, 3, 4, 5, 6, 7, 8, 9, 10, 11, 12, 13, 13]
      ∧ gBlockSizes.length = 13
      ∧ selectBlock 0 (footprint 0x10000000) = MM_BLOCKS - 1
      ∧ allocSize 0 0x10000000 = footprint 0x10000000
      ∧ allocSize 0x20000000 0x10000000 = 0x20000000
      ∧ allocSize 0x20000000 0x10000000 ≠ footprint 0x10000000
      ∧ selectReads 0 0x20000000 = [0, 1, 2, 3, 4, 5, 6, 7, 8, 9, 10, 11, 12, 13, 13]
      ∧ freeBlock 0 0x20000000 = MM_BLOCKS - 1 :=
  ⟨by decide, by decide, by decide, by decide, by decide, by decide, by decide, by decide,
    by decide⟩

/-- The model `fast_fill` of the external primitive does what the specification
assumes of it. -/
theorem fast_fill_spec : FastFillSpec fast_fill := by
  intro m trg value size a _ _
  rfl

/-- The size of the fast part, `(size >> 4) << 4`, is `size` rounded down to a
multiple of 16, and the loop runs over the remainder. -/
theorem fastSize_eq (size : Nat) (h : size < WORD) :
    (((size % WORD) >>> 4) <<< 4) % WORD = size / 16 * 16
      ∧ sub32 size (size / 16 * 16) = size % 16 := by
  rw [Nat.mod_eq_of_lt h, Nat.shiftRight_eq_div_pow, Nat.shiftLeft_eq]
  unfold sub32 WORD at *
  omega

/-- The loop of `m_memset`, on a range that does not wrap: the `count` bytes from
`uTrg` get the low byte of the stored word, and no byte before `uTrg` or from
`uTrg + count + 3` on is changed. -/
theorem tailLoop_spec (word : Nat) :
    ∀ (count uTrg : Nat) (m : Mem), uTrg + count + 3 ≤ WORD → ∀ a,
      (uTrg ≤ a ∧ a < uTrg + count → tailLoop word count uTrg m a = word % 256)
        ∧ (a < uTrg ∨ uTrg + count + 3 ≤ a → tailLoop word count uTrg m a = m a) := by
  intro count
  induction count with
  | zero =>
    intro uTrg m _ a
    exact ⟨fun h => by omega, fun _ => rfl⟩
  | succ n ih =>
    intro uTrg m hw a
    unfold tailLoop
    have e1 : (uTrg + 1) % WORD = uTrg + 1 := Nat.mod_eq_of_lt (by omega)
    rw [e1]
    obtain ⟨i1, i2⟩ := ih (uTrg + 1) (write32 m uTrg word) (by omega) a
    have hout : a < uTrg ∨ uTrg + 4 ≤ a → write32 m uTrg word a = m a := by
      intro ha
      apply write32_other
      intro i hi
      rw [Nat.mod_eq_of_lt (by omega)]
      omega
    constructor
    · intro ha
      by_cases e : a = uTrg
      · rw [i2 (by omega), e]
        unfold write32
        rw [if_pos (Nat.mod_eq_of_lt (by omega)).symm]
      · exact i1 (by omega)
    · intro ha
      rw [i2 (by omega)]
      exact hout (by omega)

/-- C14. For every target, byte value and size with `trg + size + 3` below `2^32`,
and every `__qmset` that sets exactly the bytes of its range to the value, after
`m_memset(trg, value, size)` every byte at an address in `[trg, trg + size)` is
`value`, for both signednesses of `char`. -/
theorem C14_fill_sets_range (qmset : Mem → Nat → Nat → Nat → Mem) (hq : FastFillSpec qmset)
    (signedChar : Bool) (trg value size : Nat) (m : Mem) (hv : value < 256)
    (hw : trg + size + 3 < WORD) (a : Nat) (h1 : trg ≤ a) (h2 : a < trg + size) :
    m_memset qmset signedChar trg value size m a = value := by
  have hsz : size < WORD := by omega
  obtain ⟨ef, es⟩ := fastSize_eq size hsz
  have hword : charToUInt signedChar value % 256 = value := by
    unfold charToUInt
    split <;> omega
  unfold m_memset
  rw [ef, es]
  have hfl : size / 16 * 16 ≤ size := by omega
  have et : (trg + size / 16 * 16) % WORD = trg + size / 16 * 16 := Nat.mod_eq_of_lt (by omega)
  rw [et]
  obtain ⟨t1, t2⟩ := tailLoop_spec (charToUInt signedChar value) (size % 16)
    (trg + size / 16 * 16)
    (if size / 16 * 16 ≠ 0 then qmset m trg (charToUInt signedChar value) (size / 16 * 16) else m)
    (by omega) a
  by_cases hin : trg + size / 16 * 16 ≤ a
  · rw [t1 ⟨hin, by omega⟩, hword]
  · rw [t2 (Or.inl (by omega))]
    have hne : size / 16 * 16 ≠ 0 := by omega
    rw [if_pos hne, hq m trg _ _ a (by omega) (by omega), if_pos ⟨h1, by omega⟩, hword]

/-- C14 for the model of the external primitive: 17 bytes of `0x41` at `0x10014`,
of which the last one is set by the loop. -/
theorem C14_fill_sets_range_witness :
    m_memset fast_fill false 0x10014 0x41 17 ffMem 0x10024 = 0x41 :=
  C14_fill_sets_range fast_fill fast_fill_spec false 0x10014 0x41 17 ffMem (by decide)
    (by decide) 0x10024 (by decide) (by decide)

/-- C15 at failing inputs. `m_memset(0x10014, 0x41, 1)` on a memory of `0xFF` bytes
sets the byte at `0x10014` and also clears the three bytes `0x10015..0x10017` behind
the range, because the loop stores a 32-bit word; with size 17 the fast part fills 16
bytes, the loop sets the byte at `0x10024` and clears `0x10025..0x10027`. The byte in
front of the range and the fourth byte behind it are left alone. -/
theorem C15_fill_frame :
    m_memset fast_fill false 0x10014 0x41 1 ffMem 0x10014 = 0x41
      ∧ ffMem 0x10015 = 0xFF
      ∧ m_memset fast_fill false 0x10014 0x41 1 ffMem 0x10015 = 0
      ∧ m_memset fast_fill false 0x10014 0x41 1 ffMem 0x10016 = 0
      ∧ m_memset fast_fill false 0x10014 0x41 1 ffMem 0x10017 = 0
      ∧ m_memset fast_fill false 0x10014 0x41 1 ffMem 0x10018 = 0xFF
      ∧ m_memset fast_fill false 0x10014 0x41 1 ffMem 0x10013 = 0xFF
      ∧ m_memset fast_fill true 0x10014 0x41 1 ffMem 0x10015 = 0
      ∧ m_memset fast_fill false 0x10014 0x41 17 ffMem 0x10024 = 0x41
      ∧ m_memset fast_fill false 0x10014 0x41 17 ffMem 0x10025 = 0
      ∧ m_memset fast_fill false 0x10014 0x41 17 ffMem 0x10027 = 0 :=
  ⟨by decide, by decide, by decide, by decide, by decide, by decide, by decide, by decide,
    by decide, by decide, by decide⟩

/-- The blocks of a tiling cover exactly the addresses from `base` to the top. -/
theorem Tiles.union {base : Nat} : ∀ {B : List (Nat × Nat)} {top : Nat}, Tiles base top B →
    (∀ b ∈ B, 0 < b.2) →
    ∀ a, (base ≤ a ∧ a < top) ↔ ∃ b ∈ B, b.1 ≤ a ∧ a < b.1 + b.2 := by
  intro B
  induction B with
  | nil =>
    intro top ht _ a
    have e : top = base := ht
    constructor
    · intro h; omega
    · rintro ⟨b, hb, _⟩
      exact absurd hb (List.not_mem_nil _)
  | cons b rest ih =>
    intro top ht hpos a
    obtain ⟨e, hr⟩ := ht
    have hpos1 : ∀ c ∈ rest, 0 < c.2 := fun c hc => hpos c (List.mem_cons_of_mem _ hc)
    have hb := (Tiles.bounds hr hpos1).1
    have := ih hr hpos1 a
    constructor
    · intro h
      by_cases hc : b.1 ≤ a
      · exact ⟨b, List.mem_cons_self _ _, hc, by omega⟩
      · obtain ⟨c, hc1, hc2⟩ := this.mp ⟨h.1, by omega⟩
        exact ⟨c, List.mem_cons_of_mem _ hc1, hc2⟩
    · rintro ⟨c, hc, h1, h2⟩
      rcases List.mem_cons.mp hc with e1 | hc1
      · rw [e1] at h1 h2
        omega
      · have := this.mpr ⟨c, hc1, h1, h2⟩
        have := hpos b (List.mem_cons_self _ _)
        omega

/-- A chain read by position: the head variable holds the first node, the `prev`
link of each node is the next node of the list, that of the last node is 0, and the
`next` link of each node is the node before it, that of the first node is `nxt`. -/
theorem Links.get {m : Mem} : ∀ {l : List Nat} {nxt p : Nat}, Links m nxt p l →
    p = l.getD 0 0 ∧ ∀ i, i < l.length →
      l.getD i 0 ≠ 0 ∧ read32 m (l.getD i 0 + 12) = l.getD (i + 1) 0
        ∧ read32 m (l.getD i 0 + 16) = (if i = 0 then nxt else l.getD (i - 1) 0) := by
  intro l
  induction l with
  | nil =>
    intro nxt p h
    exact ⟨h, fun i hi => absurd hi (Nat.not_lt_zero _)⟩
  | cons a t ih =>
    intro nxt p h
    obtain ⟨h1, h2, h3, h4⟩ := h
    obtain ⟨i1, i2⟩ := ih h4
    refine ⟨h1, ?_⟩
    intro i hi
    cases i with
    | zero =>
      refine ⟨h2, ?_, ?_⟩
      · simp only [List.getD_cons_zero, List.getD_cons_succ]
        exact i1
      · simp only [List.getD_cons_zero, if_true]
        exact h3
    | succ j =>
      have hj : j < t.length := by
        simp only [List.length_cons] at hi
        omega
      obtain ⟨j1, j2, j3⟩ := i2 j hj
      simp only [List.getD_cons_succ]
      refine ⟨j1, j2, ?_⟩
      rw [j3, if_neg (Nat.succ_ne_zero j)]
      cases j with
      | zero => simp
      | succ j' => simp

/-- C16. In every state reached by well-formed calls (frees of live pointers, no
oversized request, no 32-bit wrap) there are the chains `F k` of the free lists, read
from the list heads through the `prev` links, such that: no header occurs twice among
the live blocks or the chains, no block is both live and on a chain, any two of these
blocks occupy disjoint ranges `[header, header + psize)`, the ranges cover exactly the
addresses from `heap_start` to the frontier `gHeapStart`, and the payloads
`[header + 20, header + 20 + size)` of two live blocks are disjoint. -/
theorem C16_blocks_never_overlap (cfg : Config) (m0 : Mem) (ops : List Op) (s : State)
    (live : List Nat) (hrun : run cfg m0 ops = some (s, live)) :
    ∃ F : Nat → List Nat,
      (∀ k, Links s.mem 0 (s.gFreeList k) (F k))
      ∧ live.Nodup ∧ (∀ k, (F k).Nodup) ∧ (∀ j k h, h ∈ F j → h ∈ F k → j = k)
      ∧ (∀ h ∈ live, ∀ k, h ∉ F k)
      ∧ (∀ h h2, (h ∈ live ∨ ∃ k, h ∈ F k) → (h2 ∈ live ∨ ∃ k, h2 ∈ F k) → h ≠ h2 →
          h + read32 s.mem (h + 8) ≤ h2 ∨ h2 + read32 s.mem (h2 + 8) ≤ h)
      ∧ (∀ a, (m_get_heap_start cfg ≤ a ∧ a < s.gHeapStart) ↔
          ∃ h, (h ∈ live ∨ ∃ k, h ∈ F k) ∧ h ≤ a ∧ a < h + read32 s.mem (h + 8))
      ∧ (∀ h ∈ live, ∀ h2 ∈ live, h ≠ h2 →
          h + HEADER_SIZE + read32 s.mem (h + 4) ≤ h2 + HEADER_SIZE
            ∨ h2 + HEADER_SIZE + read32 s.mem (h2 + 4) ≤ h + HEADER_SIZE) := by
  obtain ⟨B, F, hI⟩ := run_inv hrun
  -- every block that is live or on a chain is a block of the tiling, with its `psize`
  have hblk : ∀ h, (h ∈ live ∨ ∃ k, h ∈ F k) → (h, read32 s.mem (h + 8)) ∈ B := by
    intro h hh
    rcases hh with hl | ⟨k, hk⟩
    · obtain ⟨p, hp⟩ := hI.live_in h hl
      rw [hI.psz _ hp]
      exact hp
    · have hp := (hI.free_in k h hk).2.1
      rw [hI.psz _ hp]
      exact hp
  have hdis := Tiles.disjoint hI.tiles hI.pos
  have hsep : ∀ h h2, (h ∈ live ∨ ∃ k, h ∈ F k) → (h2 ∈ live ∨ ∃ k, h2 ∈ F k) → h ≠ h2 →
      h + read32 s.mem (h + 8) ≤ h2 ∨ h2 + read32 s.mem (h2 + 8) ≤ h := by
    intro h h2 hh hh2 hne
    rcases hdis _ (hblk h hh) _ (hblk h2 hh2) with e | e | e
    · exact absurd (congrArg Prod.fst e) hne
    · exact Or.inl e
    · exact Or.inr e
  refine ⟨F, hI.chain, hI.live_nodup, hI.free_nodup, ?_, ?_, hsep, ?_, ?_⟩
  · intro j k h hj hk
    exact hI.bucket_uniq h j k hj hk
  · intro h hl k hk
    exact (hI.free_in k h hk).2.2 hl
  · intro a
    have hu := Tiles.union hI.tiles hI.pos a
    have hfr : (m_get_heap_start cfg ≤ a ∧ a < s.gHeapStart)
        ↔ (m_get_heap_start cfg ≤ a ∧ a < frontier cfg s) := by
      by_cases h0 : s.gHeapStart = 0
      · have : frontier cfg s = m_get_heap_start cfg := by
          unfold frontier lazyInit
          rw [if_pos h0]
        rw [this, h0]
        constructor <;> intro h <;> omega
      · rw [frontier_of_ne cfg s h0]
    rw [hfr, hu]
    constructor
    · rintro ⟨b, hb, h1, h2⟩
      refine ⟨b.1, ?_, h1, ?_⟩
      · rcases hI.cover b hb with hl | hf
        · exact Or.inl hl
        · exact Or.inr hf
      · rw [hI.psz b hb]
        exact h2
    · rintro ⟨h, hh, h1, h2⟩
      exact ⟨_, hblk h hh, h1, h2⟩
  · intro h hl h2 hl2 hne
    have f1 := hI.fits h hl _ (hblk h (Or.inl hl))
    have f2 := hI.fits h2 hl2 _ (hblk h2 (Or.inl hl2))
    rcases hsep h h2 (Or.inl hl) (Or.inl hl2) hne with e | e
    · left; omega
    · right; omega

/-- C16 on the 1 MiB heap after `a = m_alloc(100)`, `m_alloc(100)`, `m_free(a)`: the
block at `0x10100` is live, the block at `0x10000` is on list 1, and the two cover
`[0x10000, 0x10200)`. -/
theorem C16_blocks_never_overlap_witness :
    ∃ s live, run exCfg zeroMem [Op.alloc 100 0, Op.alloc 100 0, Op.free 0x10014 0]
        = some (s, live)
      ∧ live = [0x10100] ∧ s.gFreeList 1 = 0x10000 ∧ s.gHeapStart = 0x10200
      ∧ ∃ F : Nat → List Nat, (∀ k, Links s.mem 0 (s.gFreeList k) (F k))
        ∧ (∀ h ∈ live, ∀ k, h ∉ F k)
        ∧ (∀ a, (m_get_heap_start exCfg ≤ a ∧ a < s.gHeapStart) ↔
            ∃ h, (h ∈ live ∨ ∃ k, h ∈ F k) ∧ h ≤ a ∧ a < h + read32 s.mem (h + 8)) :=
  ⟨_, _, rfl, rfl, rfl, rfl,
    (C16_blocks_never_overlap exCfg zeroMem
      [Op.alloc 100 0, Op.alloc 100 0, Op.free 0x10014 0] _ _ rfl).elim
      (fun F h => ⟨F, h.1, h.2.2.2.2.1, h.2.2.2.2.2.2.1⟩)⟩

set_option maxRecDepth 100000

/-- C17 at a failing input, where the frontier wraps. On the 64 KiB heap at
`0x100000` sixteen calls `m_alloc(0x0FFFFFEC)`, each with the footprint `0x10000000` of
the largest class, all pass the capacity check and carve `2^32` bytes, so that the
frontier is back at `0x100000`. Freeing the first block puts its header `0x100000`
onto list 12, and `m_alloc(100)` then carves a block of class 1 at `0x100000`: the
head node of bucket 12 has `psize = 0x100`, not `gBlockSizes[12]`, and is live. -/
theorem C17_free_chains_wrap :
    ∃ s live,
      runWrap exCfgHigh zeroMem
          (List.replicate 16 (Op.alloc 0x0FFFFFEC 0) ++ [Op.free 0x100014 0, Op.alloc 100 0])
        = some (s, live)
      ∧ footprint 0x0FFFFFEC = 0x10000000
      ∧ s.gFreeList 12 = 0x100000
      ∧ read32 s.mem (0x100000 + 8) = 0x100
      ∧ gBlockSizes.getD 12 0 = 0x10000000
      ∧ 0x100000 ∈ live :=
  ⟨_, _, rfl, by decide, by decide, by decide, by decide, by decide⟩

/-- The free lists are well-formed chains where no 32-bit arithmetic wraps. In
every state reached by well-formed calls (frees of live pointers, no oversized
request, no 32-bit wrap) and for every bucket `k` the chain of
list `k` is a finite list `l` of distinct non-null headers: the head variable holds the
first one (0 for the empty list), the `prev` link of each node is the next node of the
list and that of the last node is 0, the `next` link of the first node is 0 and that
of every other node is the node before it, and every node has
`psize = gBlockSizes[k]`, with `k` among the 13 classes. -/
theorem free_chains_wellformed (cfg : Config) (m0 : Mem) (ops : List Op) (s : State)
    (live : List Nat) (hrun : run cfg m0 ops = some (s, live)) (k : Nat) :
    ∃ l : List Nat, Links s.mem 0 (s.gFreeList k) l ∧ l.Nodup
      ∧ s.gFreeList k = l.getD 0 0
      ∧ ∀ i, i < l.length →
          l.getD i 0 ≠ 0
            ∧ read32 s.mem (l.getD i 0 + 12) = l.getD (i + 1) 0
            ∧ read32 s.mem (l.getD i 0 + 16) = (if i = 0 then 0 else l.getD (i - 1) 0)
            ∧ k < 13 ∧ read32 s.mem (l.getD i 0 + 8) = gBlockSizes.getD k 0 := by
  obtain ⟨B, F, hI⟩ := run_inv hrun
  obtain ⟨g1, g2⟩ := (hI.chain k).get
  refine ⟨F k, hI.chain k, hI.free_nodup k, g1, ?_⟩
  intro i hi
  obtain ⟨a1, a2, a3⟩ := g2 i hi
  have hmem : (F k).getD i 0 ∈ F k := by
    rw [List.getD_eq_getElem _ _ hi]
    exact List.getElem_mem _
  obtain ⟨b1, b2, _⟩ := hI.free_in k _ hmem
  exact ⟨a1, a2, a3, b1, hI.psz _ b2⟩

/-- The chain of list 1 on the 1 MiB heap after three blocks of class 1 and two frees: list 1 is the
chain `0x10100`, `0x10000`. -/
theorem free_chains_wellformed_example :
    ∃ s live, run exCfg zeroMem [Op.alloc 100 0, Op.alloc 100 0, Op.alloc 100 0,
        Op.free 0x10014 0, Op.free 0x10114 0] = some (s, live)
      ∧ s.gFreeList 1 = 0x10100 ∧ read32 s.mem (0x10100 + 12) = 0x10000
      ∧ read32 s.mem (0x10000 + 12) = 0 ∧ read32 s.mem (0x10000 + 16) = 0x10100
      ∧ ∃ l : List Nat, Links s.mem 0 (s.gFreeList 1) l ∧ l.Nodup :=
  ⟨_, _, rfl, rfl, by decide, by decide, by decide,
    (free_chains_wellformed exCfg zeroMem [Op.alloc 100 0, Op.alloc 100 0, Op.alloc 100 0,
        Op.free 0x10014 0, Op.free 0x10114 0] _ _ rfl 1).elim
      (fun l h => ⟨l, h.1, h.2.1⟩)⟩

/-- C3 at a failing input. On the 64 KiB heap at `0x100000` the lazy initialisation
leaves `gHeapMax = 0xFFF10000`, and fifteen well-formed calls `m_alloc(0x0FFFFFEC)`, each
with the block size `0x10000000`, leave `gHeapUsed = 0xF0000000`. For the next
`m_alloc(0x0FFFFFEC)` the sum `gHeapUsed + uAllocSize = 2^32` exceeds `gHeapMax`, but
line 108 computes it in 32 bits as 0: the call returns `0xF0100014`, writes a header
at `0xF0100000`, sets `gHeapUsed` to 0 and moves the frontier to `0x100000`. -/
theorem C3_oom_check_wraps :
    ∃ s live,
      run exCfgHigh zeroMem (List.replicate 15 (Op.alloc 0x0FFFFFEC 0)) = some (s, live)
        ∧ s.gHeapUsed = 0xF0000000 ∧ s.gHeapMax = 0xFFF10000 ∧ s.gHeapStart = 0xF0100000
        ∧ allocSize 0 0x0FFFFFEC = 0x10000000
        ∧ s.gHeapUsed + allocSize 0 0x0FFFFFEC > s.gHeapMax
        ∧ (s.gHeapUsed + allocSize 0 0x0FFFFFEC) % WORD = 0
        ∧ (m_alloc exCfgHigh 0 0x0FFFFFEC s).1 = 0xF0100014
        ∧ (m_alloc exCfgHigh 0 0x0FFFFFEC s).2.gHeapUsed = 0
        ∧ (m_alloc exCfgHigh 0 0x0FFFFFEC s).2.gHeapStart = 0x100000
        ∧ read32 s.mem 0xF0100000 = 0
        ∧ read32 (m_alloc exCfgHigh 0 0x0FFFFFEC s).2.mem 0xF0100000 = MM_MAGIC :=
  ⟨_, _, rfl, by decide, by decide, by decide, by decide, by decide, by decide, by decide,
    by decide, by decide, by decide, by decide⟩

/-- C5 at a failing input, where `gHeapUsed` wraps. On the 64 KiB heap at `0x8000000`
the lazy initialisation leaves `gHeapMax = 0xF8010000`. Four calls `m_alloc(0x3FFFFEC)`
(class 11, `0x4000000` bytes each) and fifteen calls `m_alloc(0x0FFFFFEC)` (class 12)
all pass the capacity check, carve `2^32` bytes and leave `gHeapUsed = 0`. The first
two blocks `a1 = 0x8000014` and `a2 = 0xC000014` are live, of class 11 and not topmost;
`m_free(a1)`, `m_free(a2)` push them onto list 11 and leave `gHeapUsed = 0xF8000000`,
and the next two calls `m_alloc(0x3FFFFEC)` fail the capacity check and return null
instead of `a2`, `a1`. -/
theorem C5_lifo_per_class_wrap :
    ∃ s live,
      runWrap exCfgMid zeroMem
          (List.replicate 4 (Op.alloc 0x3FFFFEC 0) ++ List.replicate 15 (Op.alloc 0x0FFFFFEC 0))
        = some (s, live)
        ∧ footprint 0x3FFFFEC = 0x4000000 ∧ footprint 0x0FFFFFEC = 0x10000000
        ∧ selectBlock 0 (footprint 0x3FFFFEC) = 11
        ∧ s.gHeapUsed = 0 ∧ s.gHeapMax = 0xF8010000 ∧ s.gHeapStart = 0x8000000
        ∧ freeOk 0x8000014 live ∧ freeOk 0xC000014 live
        ∧ read32 s.mem (headerOf 0x8000014 + 8) = gBlockSizes.getD 11 0
        ∧ read32 s.mem (headerOf 0xC000014 + 8) = gBlockSizes.getD 11 0
        ∧ notTopWhenFreed 0 [0x8000014, 0xC000014] s
        ∧ (freeAll 0 [0x8000014, 0xC000014] s).gFreeList 11 = headerOf 0xC000014
        ∧ (freeAll 0 [0x8000014, 0xC000014] s).gHeapUsed = 0xF8000000
        ∧ (allocAll exCfgMid 0 [0x3FFFFEC, 0x3FFFFEC]
            (freeAll 0 [0x8000014, 0xC000014] s)).1 = [0, 0] :=
  ⟨_, _, rfl, by decide, by decide, by decide, by decide, by decide, by decide, by decide,
    by decide, by decide, by decide, ⟨by decide, by decide, trivial⟩, by decide, by decide,
    by decide⟩

end Ruspiro
